import Mathlib

/-!
# shinefetch: geometry, colour interpolation and layout of `main.go`

A shallow embedding of the render subsystem of `src/main.go`.

* Go strings are lists of runes (`Str`).
* Go `int` is 64 bit; where the source can overflow (`r2-r1`, the sums of the layout of
  `render`) the embedding wraps explicitly.
* Go `float64` is embedded bit-exactly on its finite range: a finite double is an integer
  number of units of `2^-1074` (the smallest subnormal), and every operation rounds the exact
  result to the nearest double, ties to even.  Infinities, NaN and the sign of zero are not
  represented; no operand below gets near the overflow threshold, and the sign of zero cannot be
  observed through `int(..)`, `<` or `+`.  Operations are rounded one by one (no fused
  multiply-add), as the gc compiler does on amd64.
-/

set_option maxRecDepth 100000
set_option exponentiation.threshold 5000

namespace Shinefetch

/-! ## float64 -/

namespace F64

/-- Number of units (of `2^-1074`) in `1.0`. -/
def U : Nat := 2 ^ 1074

/-- Worker of `ilog2`: halve until below two, counting the steps. -/
def ilog2Aux : Nat → Nat → Nat → Nat
  | 0, _, acc => acc
  | f + 1, n, acc => if n < 2 then acc else ilog2Aux f (n / 2) (acc + 1)

/-- Position of the leading bit of `n` (and `0` for `n = 0`). -/
def ilog2 (n : Nat) : Nat := ilog2Aux n n 0

/-- Quotient `a / b` rounded to the nearest integer, ties to the even one. -/
def rne (a b : Nat) : Nat :=
  if 2 * (a % b) < b then a / b
  else if b < 2 * (a % b) then a / b + 1
  else if (a / b) % 2 = 0 then a / b else a / b + 1

/-- Exponent of the spacing of doubles around a magnitude of `q` units: 53 significant bits,
spacing one unit in the subnormal range. -/
def gridExp (q : Nat) : Nat := ilog2 q - 52

/-- Nearest double (in units) to the non-negative rational `num / den` units. -/
def roundNat (num den : Nat) : Nat :=
  rne num (den * 2 ^ gridExp (num / den)) * 2 ^ gridExp (num / den)

/-- Nearest double (in units) to the rational `num / den` units; rounding is symmetric. -/
def round (num : Int) (den : Nat) : Int :=
  if num < 0 then -((roundNat num.natAbs den : Nat) : Int)
  else ((roundNat num.natAbs den : Nat) : Int)

/-- Conversion `float64(i)` of an integer. -/
def ofInt (i : Int) : Int := round (i * U) 1

/-- Decimal literal `num / den` as the compiler converts it to a double. -/
def ofRat (num : Int) (den : Nat) : Int := round (num * U) den

/-- Sum `a + b` of doubles. -/
def fadd (a b : Int) : Int := round (a + b) 1

/-- Difference `a - b` of doubles. -/
def fsub (a b : Int) : Int := round (a - b) 1

/-- Product `a * b` of doubles. -/
def fmul (a b : Int) : Int := round (a * b) U

/-- Quotient `a / b` of doubles, for a divisor other than zero. -/
def fdiv (a b : Int) : Int :=
  if b < 0 then round (-(a * U)) b.natAbs else round (a * U) b.natAbs

/-- Worker of `isqrt`: decide the bits of the root from the top one down. -/
def isqrtAux : Nat → Nat → Nat → Nat
  | 0, _, r => r
  | k + 1, n, r =>
    if (r + 2 ^ k) * (r + 2 ^ k) ≤ n then isqrtAux k n (r + 2 ^ k) else isqrtAux k n r

/-- Integer square root (rounded down). -/
def isqrt (n : Nat) : Nat := isqrtAux (ilog2 n / 2 + 1) n 0

/-- Nearest double (in units) to the square root of `a` units. -/
def sqrtNat (a : Nat) : Nat :=
  let n := a * U
  let t := gridExp (isqrt n)
  let f := isqrt (n / 4 ^ t)
  if 4 * n < 4 ^ t * (4 * (f * f + f) + 1) then f * 2 ^ t else (f + 1) * 2 ^ t

/-- Function `math.Sqrt` on non-negative doubles. -/
def fsqrt (a : Int) : Int := ((sqrtNat a.toNat : Nat) : Int)

/-- Function `math.Min` on finite doubles. -/
def fmin (a b : Int) : Int := if a ≤ b then a else b

/-- Conversion `int(x)`: truncation toward zero.  Outside the range of a 64 bit `int` Go leaves
the result to the implementation; amd64 yields the smallest integer. -/
def toInt (a : Int) : Int :=
  if -(2 : Int) ^ 63 ≤ Int.tdiv a U ∧ Int.tdiv a U < 2 ^ 63 then Int.tdiv a U else -(2 : Int) ^ 63

/-- Predicate of the magnitudes (in units) that a double can have: a multiple of the spacing of
its own binade. -/
def IsRep (k : Nat) : Prop := 2 ^ gridExp k ∣ k

instance (k : Nat) : Decidable (IsRep k) := by unfold IsRep; infer_instance

/-- Predicate of the (finite) doubles among the integers of units. -/
def IsF64 (a : Int) : Prop := IsRep a.natAbs

instance (a : Int) : Decidable (IsF64 a) := by unfold IsF64; infer_instance


end F64

open F64

/-! ## Strings and numbers of the Go library -/

/-- Go strings, as sequences of runes. -/
abbrev Str := List Char

/-- Function `strings.Split(s, sep)` for a separator of one rune. -/
def stringsSplit (sep : Char) : Str → List Str
  | [] => [[]]
  | c :: cs =>
    if c = sep then [] :: stringsSplit sep cs
    else
      match stringsSplit sep cs with
      | [] => [[c]]
      | h :: t => (c :: h) :: t

/-- Outcome of `strconv.ParseUint(s, 10, 64)`. -/
inductive ParseResult where
  | ok (n : Nat)
  | malformed
  | outOfRange
  deriving DecidableEq, Repr

/-- Digit loop of `strconv.ParseUint(s, 10, 64)`: a rune that is no digit is a syntax error, and
a value beyond `2^64 - 1` a range error as soon as it is reached. -/
def parseUint : Str → Nat → ParseResult
  | [], n => ParseResult.ok n
  | c :: cs, n =>
    if c.isDigit then
      if 1844674407370955162 ≤ n then ParseResult.outOfRange
      else if 2 ^ 64 - 1 < n * 10 + (c.toNat - 48) then ParseResult.outOfRange
      else parseUint cs (n * 10 + (c.toNat - 48))
    else ParseResult.malformed

/-- Value returned by `strconv.Atoi(s)`, whose error the source discards: `0` on a syntax error,
the nearest limit of a 64 bit `int` on a range error. -/
def atoi (s : Str) : Int :=
  match s with
  | [] => 0
  | c :: cs =>
    let body := if c = '+' ∨ c = '-' then cs else s
    if body = [] then 0
    else
      match parseUint body 0 with
      | ParseResult.malformed => 0
      | ParseResult.outOfRange => if c = '-' then -(2 : Int) ^ 63 else (2 : Int) ^ 63 - 1
      | ParseResult.ok un =>
        if c = '-' then (if 2 ^ 63 < un then -(2 : Int) ^ 63 else -(un : Int))
        else (if 2 ^ 63 ≤ un then (2 : Int) ^ 63 - 1 else (un : Int))

/-- Verb `%d` of `fmt.Sprintf` on an `int`. -/
def intToStr (i : Int) : Str :=
  if i < 0 then '-' :: Nat.toDigits 10 i.natAbs else Nat.toDigits 10 i.natAbs

/-- Call `fmt.Sprintf("%d;%d;%d", r, g, b)`. -/
def sprintfRGB (r g b : Int) : Str :=
  intToStr r ++ ';' :: (intToStr g ++ ';' :: intToStr b)

/-- Result of a 64 bit `int` operation whose exact value is `x` (two's complement wrap). -/
def wrapInt (x : Int) : Int := (x + 2 ^ 63) % 2 ^ 64 - 2 ^ 63

/-- Slice indexing `xs[i]`; `none` stands for the run-time panic of an index out of range. -/
def index (xs : List Str) (i : Int) : Option Str :=
  if i < 0 then none else xs[i.toNat]?

/-! ## Colour interpolation (`getInterpolatedRGB`) -/

/-- Closure `parse` of `getInterpolatedRGB`: the three channels of `r;g;b`, and white when there
are fewer than three fields. -/
def parse (s : Str) : Int × Int × Int :=
  match stringsSplit ';' s with
  | p0 :: p1 :: p2 :: _ => (atoi p0, atoi p1, atoi p2)
  | _ => (255, 255, 255)

/-- Product `offset * n` of `getInterpolatedRGB`, with `n = float64(len(colors))`. -/
def scaled (len : Nat) (offset : Int) : Int := fmul offset (ofInt len)

/-- Index `idx1 = int(offset*n) % len(colors)` (Go's `%` truncates). -/
def idx1 (len : Nat) (offset : Int) : Int := Int.tmod (toInt (scaled len offset)) len

/-- Index `idx2 = (idx1 + 1) % len(colors)`. -/
def idx2 (len : Nat) (offset : Int) : Int := Int.tmod (idx1 len offset + 1) len

/-- Blend weight `frac = (offset * n) - float64(int(offset*n))`. -/
def frac (len : Nat) (offset : Int) : Int :=
  fsub (scaled len offset) (ofInt (toInt (scaled len offset)))

/-- Channel expression `int(float64(c1) + float64(c2-c1)*frac)`. -/
def blend (c1 c2 fr : Int) : Int :=
  toInt (fadd (ofInt c1) (fmul (ofInt (wrapInt (c2 - c1))) fr))

/-- Function `getInterpolatedRGB(colors, offset)`; `none` stands for an index panic. -/
def getInterpolatedRGB (colors : List Str) (offset : Int) : Option Str :=
  if colors.length = 0 then some "255;255;255".toList
  else if colors.length = 1 then index colors 0
  else
    match index colors (idx1 colors.length offset), index colors (idx2 colors.length offset) with
    | some s1, some s2 =>
      some (sprintfRGB
        (blend (parse s1).1 (parse s2).1 (frac colors.length offset))
        (blend (parse s1).2.1 (parse s2).2.1 (frac colors.length offset))
        (blend (parse s1).2.2 (parse s2).2.2 (frac colors.length offset)))
    | _, _ => none

/-- Channel value the specification states: `c1 + (c2 - c1) * frac` evaluated in `float64`
and truncated to an integer. -/
def truncLerp (c1 c2 fr : Int) : Int :=
  toInt (fadd (ofInt c1) (fmul (ofInt (c2 - c1)) fr))

/-- Predicate of the colour strings all of whose parsed channels have magnitude at most `m`. -/
def ChannelsWithin (m : Int) (s : Str) : Prop :=
  |(parse s).1| ≤ m ∧ |(parse s).2.1| ≤ m ∧ |(parse s).2.2| ≤ m

instance (m : Int) (s : Str) : Decidable (ChannelsWithin m s) := by
  unfold ChannelsWithin; infer_instance

/-- Predicate of the texts `strconv.Atoi` accepts as to their syntax: an optional sign and then
one decimal digit or more. -/
def IsIntSyntax (s : Str) : Prop :=
  match s with
  | [] => False
  | c :: cs =>
    (if c = '+' ∨ c = '-' then cs else c :: cs) ≠ [] ∧
      ∀ d ∈ (if c = '+' ∨ c = '-' then cs else c :: cs), d.isDigit = true

instance (s : Str) : Decidable (IsIntSyntax s) := by
  unfold IsIntSyntax
  cases s <;> infer_instance

/-! ## Text metrics (`stripAnsi`, `getVisibleLen`) -/

/-- Escape character `\x1b`. -/
def ESC : Char := '\x1b'

/-- Character class `[0-9;?]` of the pattern in `stripAnsi`. -/
def isParam (c : Char) : Bool :=
  decide (48 ≤ c.toNat ∧ c.toNat ≤ 57) || c == ';' || c == '?'

/-- Character class `[a-zA-Z]` of the pattern in `stripAnsi`. -/
def isFinal (c : Char) : Bool :=
  decide (97 ≤ c.toNat ∧ c.toNat ≤ 122) || decide (65 ≤ c.toNat ∧ c.toNat ≤ 90)

/-- Match of `[0-9;?]*[a-zA-Z]` at the start of the text: the text after the match. The star is
greedy, and giving characters back never helps because no parameter character is a letter. -/
def matchCSI : Str → Option Str
  | [] => none
  | c :: cs => if isParam c then matchCSI cs else if isFinal c then some cs else none

/-- Match of `\[[0-9;?]*[a-zA-Z]` at the start of the text (the pattern after its `\x1b`). -/
def matchEscape : Str → Option Str
  | [] => none
  | c :: cs => if c = '[' then matchCSI cs else none

/-- Worker of `stripAnsi`; the first argument bounds the number of steps. -/
def stripAnsiAux : Nat → Str → Str
  | 0, s => s
  | _ + 1, [] => []
  | f + 1, c :: cs =>
    if c = ESC then
      match matchEscape cs with
      | some r => stripAnsiAux f r
      | none => c :: stripAnsiAux f cs
    else c :: stripAnsiAux f cs

/-- Function `stripAnsi`: `ReplaceAllString` removes every leftmost non-overlapping match of
the pattern `\x1b\[[0-9;?]*[a-zA-Z]`. -/
def stripAnsi (s : Str) : Str := stripAnsiAux s.length s

/-- Modelled from the spec: `runewidth.StringWidth` of the library go-runewidth, which is not
part of the repository, sums the display width of every character; the width table `rw` of the
library is a parameter. -/
def stringWidth (rw : Char → Nat) (s : Str) : Nat := (s.map rw).sum

/-- Function `getVisibleLen`. -/
def getVisibleLen (rw : Char → Nat) (s : Str) : Nat := stringWidth rw (stripAnsi s)

/-- Width table for the concrete examples: control characters have width 0, the CJK unified
ideographs U+4E00..U+9FFF width 2, every other character width 1. -/
def sampleWidth (c : Char) : Nat :=
  if c.toNat < 32 then 0 else if 0x4E00 ≤ c.toNat ∧ c.toNat ≤ 0x9FFF then 2 else 1

/-! ## Panel geometry (`buildBox`) -/

/-- Type `BoxStyle`: the eight frame glyphs. -/
structure BoxStyle where
  TL : Str
  TR : Str
  BL : Str
  BR : Str
  H : Str
  V : Str
  LT : Str
  RT : Str
  deriving DecidableEq, Repr

/-- Table `boxStyles`; a key that is not in the map yields the zero value. -/
def boxStyles (key : String) : BoxStyle :=
  if key = "rounded" then ⟨['╭'], ['╮'], ['╰'], ['╯'], ['─'], ['│'], ['├'], ['┤']⟩
  else if key = "sharp" then ⟨['┌'], ['┐'], ['└'], ['┘'], ['─'], ['│'], ['├'], ['┤']⟩
  else if key = "double" then ⟨['╔'], ['╗'], ['╚'], ['╝'], ['═'], ['║'], ['╠'], ['╣']⟩
  else if key = "heavy" then ⟨['┏'], ['┓'], ['┗'], ['┛'], ['━'], ['┃'], ['┣'], ['┫']⟩
  else ⟨[], [], [], [], [], [], [], []⟩

/-- Type `Row`. -/
structure Row where
  K : Str
  V : Str
  IsSep : Bool
  IsRaw : Bool
  deriving DecidableEq, Repr

/-- Constant `reset`. -/
def reset : Str := "\x1b[0m".toList

/-- Constant `title` of `buildBox`. -/
def title : Str := " POKéDEX ".toList

/-- Colour prefix `"\x1b[1;38;2;" + rgb + "m"` (`domC`, `secC`, `terC` and the shiny border). -/
def sgr (rgb : Str) : Str := "\x1b[1;38;2;".toList ++ rgb ++ ['m']

/-- Loop of `main` (step 6) computing `maxK` and `maxV` over the rows that are no separators. -/
def maxKV (rw : Char → Nat) (rows : List Row) : Int × Int :=
  rows.foldl (fun m r =>
    if r.IsSep then m
    else
      (if (getVisibleLen rw r.K : Int) > m.1 then (getVisibleLen rw r.K : Int) else m.1,
       if (getVisibleLen rw r.V : Int) > m.2 then (getVisibleLen rw r.V : Int) else m.2)) (0, 0)

/-- Variable `maxK`. -/
def maxK (rw : Char → Nat) (rows : List Row) : Int := (maxKV rw rows).1

/-- Variable `maxV`. -/
def maxV (rw : Char → Nat) (rows : List Row) : Int := (maxKV rw rows).2

/-- Variable `innerW := maxK + 3 + maxV + 2`. -/
def innerW (rw : Char → Nat) (rows : List Row) : Int := maxK rw rows + 3 + maxV rw rows + 2

/-- Maximum the specification speaks of: the largest of the widths, `0` when there is none. -/
def specMax (ws : List Nat) : Nat := ws.foldr max 0

/-- Call `strings.Repeat(" ", n)` for a count that is not negative. -/
def spaces (n : Int) : Str := List.replicate n.toNat ' '

/-- Loop `for i := 0; i < n; i++ { b.WriteString(getB(g, row, start+i)) }`. -/
def hRun (getB : Str → Int → Int → Str) (g : Str) (row start n : Int) : Str :=
  ((List.range n.toNat).map (fun (i : Nat) => getB g row (start + (i : Int)))).flatten

/-- Header line `boxHeader` of `buildBox`. -/
def boxHeader (rw : Char → Nat) (getB : Str → Int → Int → Str) (style : BoxStyle)
    (innerW : Int) : Str :=
  let padT := Int.tdiv (innerW - getVisibleLen rw title) 2
  getB style.TL 0 0
    ++ hRun getB style.H 0 1 padT
    ++ title
    ++ hRun getB style.H 0 (1 + padT + getVisibleLen rw title)
        (max 0 (innerW - padT - getVisibleLen rw title))
    ++ getB style.TR 0 (innerW + 1)

/-- Variable `line` of `buildBox` before the value is appended: left border, key padded to
`maxK`, arrow. -/
def rowLine (rw : Char → Nat) (getB : Str → Int → Int → Str) (style : BoxStyle)
    (dom ter : Str) (maxK : Int) (rowIdx : Int) (r : Row) : Str :=
  getB style.V rowIdx 0 ++ [' '] ++ reset ++ sgr ter ++ r.K ++ reset
    ++ spaces (maxK - getVisibleLen rw r.K) ++ [' '] ++ sgr dom ++ ['➜'] ++ reset ++ [' ']

/-- Body line of `buildBox` for the row `r` at panel row `rowIdx`. -/
def boxRow (rw : Char → Nat) (getB : Str → Int → Int → Str) (style : BoxStyle)
    (dom sec ter : Str) (maxK maxV innerW : Int) (rowIdx : Int) (r : Row) : Str :=
  if r.IsSep then
    getB style.LT rowIdx 0 ++ hRun getB style.H rowIdx 1 innerW ++ getB style.RT rowIdx (innerW + 1)
  else if r.IsRaw then
    (rowLine rw getB style dom ter maxK rowIdx r ++ r.V)
      ++ spaces (max 0 (innerW
          - getVisibleLen rw (rowLine rw getB style dom ter maxK rowIdx r ++ r.V) + 1))
      ++ getB style.V rowIdx (innerW + 1)
  else
    rowLine rw getB style dom ter maxK rowIdx r ++ sgr sec ++ r.V ++ reset
      ++ spaces (maxV - getVisibleLen rw r.V) ++ [' '] ++ getB style.V rowIdx (innerW + 1)

/-- Footer line of `buildBox`. -/
def boxFooter (getB : Str → Int → Int → Str) (style : BoxStyle) (innerW : Int)
    (lastRowIdx : Int) : Str :=
  getB style.BL lastRowIdx 0 ++ hRun getB style.H lastRowIdx 1 innerW
    ++ getB style.BR lastRowIdx (innerW + 1)

/-- Closure `buildBox`: header, one line per row, footer. The border colouring closure `getB`
is a parameter. -/
def buildBox (rw : Char → Nat) (getB : Str → Int → Int → Str) (style : BoxStyle)
    (dom sec ter : Str) (rows : List Row) : List Str :=
  boxHeader rw getB style (innerW rw rows)
    :: (rows.enum.map (fun p =>
          boxRow rw getB style dom sec ter (maxK rw rows) (maxV rw rows) (innerW rw rows)
            ((p.1 : Int) + 1) p.2))
    ++ [boxFooter getB style (innerW rw rows) ((rows.length : Int) + 1)]

/-- Branch `!isShiny` of the closure `getB`: `domC + char + reset`. -/
def getBPlain (dom : Str) (char : Str) (_row _col : Int) : Str := sgr dom ++ char ++ reset

/-- Predicate of the texts that are one styling escape sequence: exactly the words of the
pattern `\x1b\[[0-9;?]*[a-zA-Z]`. -/
def IsEscapeSeq (e : Str) : Prop :=
  ∃ (ps : Str) (f : Char), e = ESC :: '[' :: (ps ++ [f]) ∧
    (∀ p ∈ ps, isParam p = true) ∧ isFinal f = true

/-- Predicate of the texts that cannot continue a styling escape sequence left open before
them: empty, or starting with a character that is neither `[`, nor a parameter, nor a letter. -/
def SafeHead (b : Str) : Prop :=
  ∀ c ∈ b.head?, c ≠ '[' ∧ isParam c = false ∧ isFinal c = false

/-- Predicate of the colour texts: made of the characters `[0-9;?]` only, as every `r;g;b`
captured by the pattern `(\d+;\d+;\d+)` or printed by `%d;%d;%d` from channels that are not
negative. -/
def IsColorText (x : Str) : Prop := ∀ c ∈ x, isParam c = true

instance (x : Str) : Decidable (IsColorText x) := by unfold IsColorText; infer_instance

/-- Predicate of the border colouring closures: the glyph between a styling escape sequence
and `reset`, as both branches of `getB` return it. -/
def IsStyled (getB : Str → Int → Int → Str) : Prop :=
  ∀ (g : Str) (row col : Int), ∃ e, IsEscapeSeq e ∧ getB g row col = e ++ g ++ reset

/-- Predicate of the glyphs of display width 1: text without escape character whose width is
1. -/
def IsGlyph1 (rw : Char → Nat) (g : Str) : Prop := ESC ∉ g ∧ stringWidth rw g = 1

instance (rw : Char → Nat) (g : Str) : Decidable (IsGlyph1 rw g) := by
  unfold IsGlyph1; infer_instance

/-- Predicate of the glyph sets all of whose glyphs have display width 1. -/
def StyleWidth1 (rw : Char → Nat) (s : BoxStyle) : Prop :=
  IsGlyph1 rw s.TL ∧ IsGlyph1 rw s.TR ∧ IsGlyph1 rw s.BL ∧ IsGlyph1 rw s.BR ∧
    IsGlyph1 rw s.H ∧ IsGlyph1 rw s.V ∧ IsGlyph1 rw s.LT ∧ IsGlyph1 rw s.RT

instance (rw : Char → Nat) (s : BoxStyle) : Decidable (StyleWidth1 rw s) := by
  unfold StyleWidth1; infer_instance

/-- First row `Row{K: "󰦔 Trainer", V: trainer + "@cachyos"}` that `main` (step 5) appends to
`rows`; the icon of the key is U+F0994. -/
def trainerRow (trainer : Str) : Row :=
  ⟨Char.ofNat 0xF0994 :: " Trainer".toList, trainer ++ "@cachyos".toList, false, false⟩

/-- Predicate of the width tables that give every printable ASCII character one column and no
character more than two, as the table of go-runewidth does. -/
def TextWidth (rw : Char → Nat) : Prop :=
  (∀ c : Char, 32 ≤ c.toNat → c.toNat < 127 → rw c = 1) ∧ ∀ c : Char, rw c ≤ 2

/-- Rows of the concrete examples that start with the row of the trainer, as the rows of `main`
do: three information rows whose largest key is 10 and whose largest value is 20 columns
wide. -/
def trainerRows : List Row :=
  [trainerRow "ashketchum12".toList,
   ⟨"Resolution".toList, "1920x1080".toList, false, false⟩,
   ⟨"Shell".toList, "fish 3.7.1".toList, false, false⟩]

/-- Rows of the concrete examples: the four rows `main` (step 5) builds without types, shiny
count and system information: trainer, species, separator and colour dots. -/
def minimalRows : List Row :=
  [trainerRow "ash".toList,
   ⟨Char.ofNat 0xF012D :: " Species".toList, "Pikachu".toList, false, false⟩,
   ⟨[], [], true, false⟩,
   ⟨" Colors".toList, "\x1b[38;2;250;214;29m● \x1b[0m\x1b[38;2;198;134;54m● \x1b[0m".toList,
     false, true⟩]

/-- Rows of the concrete examples: three information rows whose largest key is 10 and whose
largest value is 20 columns wide. -/
def sampleRows : List Row :=
  [⟨"OS".toList, "CachyOS Linux x86_64".toList, false, false⟩,
   ⟨"Resolution".toList, "1920x1080".toList, false, false⟩,
   ⟨"Shell".toList, "fish 3.7.1".toList, false, false⟩]

/-- Rows of the concrete examples: a key/value row, a preformatted row with embedded styling,
a separator and a row with wide characters. -/
def mixedRows : List Row :=
  [⟨"Trainer".toList, "ash@cachyos".toList, false, false⟩,
   ⟨"Type".toList, "\x1b[1;38;2;255;255;255m\x1b[48;2;238;129;48m Fire \x1b[0m".toList, false, true⟩,
   ⟨[], [], true, false⟩,
   ⟨"OS".toList, "世界 Linux".toList, false, false⟩]

/-! ## Layout (`render`) -/

/-- Sum `a + b` of two 64 bit `int`. -/
def iadd (a b : Int) : Int := wrapInt (a + b)

/-- Difference `a - b` of two 64 bit `int`. -/
def isub (a b : Int) : Int := wrapInt (a - b)

/-- Variable `totalW := pokeW + gap + innerW + 2` of the centred branch of `render`. -/
def totalCenter (gap pokeW innerW : Int) : Int := iadd (iadd (iadd pokeW gap) innerW) 2

/-- Variable `totalW := gap + pokeW + gap + innerW + 2` of the left branch of `render`. -/
def totalLeft (gap pokeW innerW : Int) : Int := iadd (iadd (iadd (iadd gap pokeW) gap) innerW) 2

/-- Layout part of the closure `render`: the effective gap and the left padding `lPad`, from
the alignment, the configured gap, the art width, the inner panel width and the terminal
width, in 64 bit `int` arithmetic.  Go's `/` truncates toward zero. -/
def renderLayout (align : String) (cfgGap pokeW innerW termW : Int) : Int × Int :=
  if align = "center" then
    if totalCenter cfgGap pokeW innerW > termW then
      (max 2 (isub cfgGap (isub (totalCenter cfgGap pokeW innerW) termW)),
        max 0 (Int.tdiv (isub termW
          (totalCenter (max 2 (isub cfgGap (isub (totalCenter cfgGap pokeW innerW) termW)))
            pokeW innerW)) 2))
    else (cfgGap, max 0 (Int.tdiv (isub termW (totalCenter cfgGap pokeW innerW)) 2))
  else
    if totalLeft cfgGap pokeW innerW > termW then
      (max 2 (isub cfgGap (Int.tdiv (isub (totalLeft cfgGap pokeW innerW) termW) 2)),
        max 2 (isub cfgGap (Int.tdiv (isub (totalLeft cfgGap pokeW innerW) termW) 2)))
    else (cfgGap, cfgGap)

/-- Effective gap of `render`. -/
def renderGap (align : String) (cfgGap pokeW innerW termW : Int) : Int :=
  (renderLayout align cfgGap pokeW innerW termW).1

/-- Left padding `lPad` of `render`. -/
def renderLPad (align : String) (cfgGap pokeW innerW termW : Int) : Int :=
  (renderLayout align cfgGap pokeW innerW termW).2

/-! ## Border animation (`getB`) -/

/-- Value `spatialDelay` of `getB` for the cell `(row, col)` of a panel of `totalW` by `totalH`
cells: the distance to the nearest corner, divided by `300.0`. -/
def spatialDelay (totalW totalH row col : Int) : Int :=
  let dx := fmin (ofInt col) (ofInt (totalW - 1 - col))
  let dy := fmin (ofInt row) (ofInt (totalH - 1 - row))
  fdiv (fsqrt (fadd (fmul dx dx) (fmul dy dy))) (ofInt 300)

/-- Loop `for o < 0.0 { o += 1.0 }` run for at most `fuel` rounds; `none` when it has not
finished by then. -/
def wrapLoop : Nat → Int → Option Int
  | 0, o => if o < 0 then none else some o
  | fuel + 1, o => if o < 0 then wrapLoop fuel (fadd o U) else some o

/-- Offset `o` of `getB`: the phase less the spatial delay, wrapped by `wrapLoop`. -/
def wrappedOffset (fuel : Nat) (animOffset delay : Int) : Option Int :=
  wrapLoop fuel (fsub animOffset delay)

/-- Colour `color := getInterpolatedRGB(borderColors, o)` of `getB`, before the pulse. -/
def baseColor (fuel : Nat) (borderColors : List Str) (animOffset : Int)
    (totalW totalH row col : Int) : Option Str :=
  match wrappedOffset fuel animOffset (spatialDelay totalW totalH row col) with
  | some o => getInterpolatedRGB borderColors o
  | none => none

/-! ## Animation phase (timer tick of `main`) -/

/-- Literal `0.0017`. -/
def tickStep : Int := ofRat 17 10000

/-- Tick `animOffset += 0.0017; if animOffset > 1.0 { animOffset -= 1.0 }`. -/
def tick (animOffset : Int) : Int :=
  if fadd animOffset tickStep > U then fsub (fadd animOffset tickStep) U
  else fadd animOffset tickStep

/-- Phase passed to `render` after `n` ticks, from `animOffset := 0.0`. -/
def phaseAfter : Nat → Int
  | 0 => 0
  | n + 1 => tick (phaseAfter n)

/-- Phase of the concrete example of the wrap loop: the `float64` just below the spatial delay
of the cell `(0, 1)` of a panel of 37 by 5 cells (`1/300`, spacing `2^-61`). -/
def phaseBelowDelay : Int := spatialDelay 37 5 0 1 - ((2 ^ 1013 : Nat) : Int)

/-! ## Line composition (`render`) -/

/-- Loop of `main` computing `pokeW`, the largest visible width of the art lines. -/
def pokeWidth (rw : Char → Nat) (pokeLines : List Str) : Int :=
  pokeLines.foldl (fun w l =>
    if (getVisibleLen rw l : Int) > w then (getVisibleLen rw l : Int) else w) 0

/-- Guarded access `if idx >= 0 && idx < len(xs) { .. xs[idx] .. }`. -/
def lineAt (xs : List Str) (idx : Int) : Option Str :=
  if 0 ≤ idx ∧ idx < xs.length then xs[idx.toNat]? else none

/-- Variable `pStr` of `render` for output line `i`: the art line centred in `pokeW` columns and
padded on the right, or `pokeW` spaces where there is no art line. -/
def artCell (rw : Char → Nat) (pokeLines : List Str) (pokeW pTop i : Int) : Str :=
  match lineAt pokeLines (i - pTop) with
  | some l =>
    (spaces (Int.tdiv (pokeW - getVisibleLen rw l) 2) ++ l)
      ++ spaces (pokeW - getVisibleLen rw (spaces (Int.tdiv (pokeW - getVisibleLen rw l) 2) ++ l))
  | none => spaces pokeW

/-- Variable `bStr` of `render` for output line `i`: the panel line, or the empty string where
there is none. -/
def panelCell (boxLines : List Str) (bTop i : Int) : Str :=
  match lineAt boxLines (i - bTop) with
  | some b => b
  | none => []

/-- Variable `maxH` of `render`. -/
def frameHeight (pokeLines boxLines : List Str) : Int :=
  max (pokeLines.length : Int) (boxLines.length : Int)

/-- Variable `pTop` (for the art lines) and `bTop` (for the panel lines) of `render`. -/
def topPad (maxH : Int) (xs : List Str) : Int := Int.tdiv (maxH - xs.length) 2

/-- Variable `lineOut` of `render` for output line `i`. -/
def lineOut (rw : Char → Nat) (pokeLines boxLines : List Str) (pokeW lPad gap : Int) (i : Int) :
    Str :=
  spaces lPad
    ++ artCell rw pokeLines pokeW (topPad (frameHeight pokeLines boxLines) pokeLines) i
    ++ spaces gap
    ++ panelCell boxLines (topPad (frameHeight pokeLines boxLines) boxLines) i

/-- Lines composed by the loop `for i := 0; i < maxH; i++` of `render`. -/
def renderLines (rw : Char → Nat) (pokeLines boxLines : List Str) (pokeW lPad gap : Int) :
    List Str :=
  (List.range (frameHeight pokeLines boxLines).toNat).map
    (fun (i : Nat) => lineOut rw pokeLines boxLines pokeW lPad gap (i : Int))

/-- Effective gap of `render` for the art block and the rows at hand. -/
def frameGap (rw : Char → Nat) (rows : List Row) (pokeLines : List Str) (align : String)
    (cfgGap termW : Int) : Int :=
  renderGap align cfgGap (pokeWidth rw pokeLines) (innerW rw rows) termW

/-- Left padding `lPad` of `render` for the art block and the rows at hand. -/
def frameLPad (rw : Char → Nat) (rows : List Row) (pokeLines : List Str) (align : String)
    (cfgGap termW : Int) : Int :=
  renderLPad align cfgGap (pokeWidth rw pokeLines) (innerW rw rows) termW

/-- Frame of the closure `render`: the layout of `renderLayout`, the panel of `buildBox` and
the lines of `renderLines`; `none` stands for the panic of `strings.Repeat` on a negative
count, which `lPad` or `gap` is when the configured gap is negative. -/
def renderFrame (rw : Char → Nat) (getB : Str → Int → Int → Str) (style : BoxStyle)
    (dom sec ter : Str) (rows : List Row) (pokeLines : List Str) (align : String)
    (cfgGap termW : Int) : Option (List Str) :=
  if frameLPad rw rows pokeLines align cfgGap termW < 0
      ∨ frameGap rw rows pokeLines align cfgGap termW < 0 then none
  else
    some (renderLines rw pokeLines (buildBox rw getB style dom sec ter rows)
      (pokeWidth rw pokeLines) (frameLPad rw rows pokeLines align cfgGap termW)
      (frameGap rw rows pokeLines align cfgGap termW))

/-- Art block of the concrete examples: seven lines, the widest of four columns, one of them
with styling. -/
def sampleArt : List Str :=
  ["##".toList, "####".toList, "\x1b[48;2;10;20;30m##\x1b[0m".toList, "#".toList, "###".toList,
   "##".toList, "#".toList]

/-- Art block of the concrete examples that is shorter than the panel of `sampleRows`: three
lines, the widest of four columns. -/
def smallArt : List Str :=
  ["##".toList, "####".toList, "\x1b[48;2;10;20;30m##\x1b[0m".toList]

/-! # Theorems -/

namespace F64

/-! ## Rounding to float64 -/

theorem ilog2Aux_eq (f : Nat) : ∀ n acc, n ≤ f → ilog2Aux f n acc = acc + Nat.log 2 n := by
  induction f with
  | zero =>
    intro n acc h
    have : n = 0 := by omega
    subst this
    simp [ilog2Aux]
  | succ f ih =>
    intro n acc h
    unfold ilog2Aux
    by_cases hn : n < 2
    · simp [hn, Nat.log_of_lt hn]
    · simp only [hn, if_false]
      rw [ih (n / 2) (acc + 1) (by omega),
        Nat.log_of_one_lt_of_le (b := 2) (n := n) (by norm_num) (by omega)]
      omega

theorem ilog2_eq (n : Nat) : ilog2 n = Nat.log 2 n := by
  unfold ilog2
  rw [ilog2Aux_eq n n 0 (le_refl n)]
  simp

theorem ilog2_mono {a b : Nat} (h : a ≤ b) : ilog2 a ≤ ilog2 b := by
  rw [ilog2_eq, ilog2_eq]
  exact Nat.log_mono_right h

theorem pow_ilog2_le {n : Nat} (h : n ≠ 0) : 2 ^ ilog2 n ≤ n := by
  rw [ilog2_eq]
  exact Nat.pow_log_le_self 2 h

theorem lt_pow_ilog2 (n : Nat) : n < 2 ^ (ilog2 n + 1) := by
  rw [ilog2_eq]
  exact Nat.lt_pow_succ_log_self (by norm_num) n

theorem ilog2_unique {n m : Nat} (h1 : 2 ^ m ≤ n) (h2 : n < 2 ^ (m + 1)) : ilog2 n = m := by
  rw [ilog2_eq]
  exact Nat.log_eq_of_pow_le_of_lt_pow h1 h2

theorem gridExp_mono {a b : Nat} (h : a ≤ b) : gridExp a ≤ gridExp b := by
  unfold gridExp
  have := ilog2_mono h
  omega

theorem rne_ge (a b : Nat) : a / b ≤ rne a b := by
  unfold rne
  split_ifs <;> omega

theorem rne_le (a b : Nat) : rne a b ≤ a / b + 1 := by
  unfold rne
  split_ifs <;> omega

theorem rne_of_dvd {a b : Nat} (h : b ∣ a) : rne a b = a / b := by
  unfold rne
  have h0 : a % b = 0 := Nat.mod_eq_zero_of_dvd h
  rw [h0]
  by_cases hb : 0 < b
  · simp [hb]
  · have : b = 0 := by omega
    subst this
    simp

theorem roundNat_ge {r num den : Nat} (hden : 0 < den) (hr : IsRep r) (h : r * den ≤ num) :
    r ≤ roundNat num den := by
  unfold roundNat
  set q := num / den with hq
  set s := gridExp q with hs
  have hG : 0 < 2 ^ s := by positivity
  have hrq : r ≤ q := (Nat.le_div_iff_mul_le hden).2 h
  have h1 : q / 2 ^ s * 2 ^ s ≤ rne num (den * 2 ^ s) * 2 ^ s := by
    apply Nat.mul_le_mul_right
    have := rne_ge num (den * 2 ^ s)
    rwa [← Nat.div_div_eq_div_mul] at this
  refine le_trans ?_ h1
  by_cases hs0 : s = 0
  · simp [hs0, hrq]
  · have hL : 53 ≤ ilog2 q := by
      have : s = ilog2 q - 52 := hs
      omega
    have hq0 : q ≠ 0 := by
      intro h0
      rw [h0] at hL
      simp [ilog2, ilog2Aux] at hL
    have hsL : s ≤ ilog2 q := by
      have : s = ilog2 q - 52 := hs
      omega
    by_cases hlt : r < 2 ^ ilog2 q
    · have hd : 2 ^ s ∣ 2 ^ ilog2 q := Nat.pow_dvd_pow 2 hsL
      have h2 : 2 ^ ilog2 q / 2 ^ s * 2 ^ s ≤ q / 2 ^ s * 2 ^ s :=
        Nat.mul_le_mul_right _ (Nat.div_le_div_right (pow_ilog2_le hq0))
      rw [Nat.div_mul_cancel hd] at h2
      omega
    · have hrL : ilog2 r = ilog2 q :=
        ilog2_unique (by omega) (lt_of_le_of_lt hrq (lt_pow_ilog2 q))
      have hd : 2 ^ s ∣ r := by
        have : gridExp r = s := by rw [hs]; unfold gridExp; rw [hrL]
        unfold IsRep at hr
        rwa [this] at hr
      have h2 : r / 2 ^ s * 2 ^ s ≤ q / 2 ^ s * 2 ^ s :=
        Nat.mul_le_mul_right _ (Nat.div_le_div_right hrq)
      rwa [Nat.div_mul_cancel hd] at h2

theorem roundNat_le {r num den : Nat} (hden : 0 < den) (hr : IsRep r) (h : num ≤ r * den) :
    roundNat num den ≤ r := by
  unfold roundNat
  set q := num / den with hq
  set s := gridExp q with hs
  have hG : 0 < 2 ^ s := by positivity
  have hqr : q ≤ r := by
    have := Nat.div_le_div_right (c := den) h
    rwa [Nat.mul_div_cancel _ hden] at this
  have hqd : q * den ≤ num := Nat.div_mul_le_self num den
  by_cases hdvd : den * 2 ^ s ∣ num
  · rw [rne_of_dvd hdvd, ← Nat.div_div_eq_div_mul]
    exact le_trans (Nat.div_mul_le_self q (2 ^ s)) hqr
  · have hGr : 2 ^ s ∣ r := by
      have h1 : 2 ^ s ∣ 2 ^ gridExp r := Nat.pow_dvd_pow 2 (gridExp_mono hqr)
      exact dvd_trans h1 hr
    have h1 : rne num (den * 2 ^ s) * 2 ^ s ≤ (q / 2 ^ s + 1) * 2 ^ s := by
      apply Nat.mul_le_mul_right
      have := rne_le num (den * 2 ^ s)
      rwa [← Nat.div_div_eq_div_mul] at this
    refine le_trans h1 ?_
    have h2 : q / 2 ^ s ≤ r / 2 ^ s := Nat.div_le_div_right hqr
    have h3 : q / 2 ^ s ≠ r / 2 ^ s := by
      intro heq
      apply hdvd
      have hr' : r = q / 2 ^ s * 2 ^ s := by rw [heq, Nat.div_mul_cancel hGr]
      have hq' : q / 2 ^ s * 2 ^ s ≤ q := Nat.div_mul_le_self q (2 ^ s)
      have hqr' : q = r := by omega
      have hnum : num = r * den := by
        rw [← hqr']; rw [← hqr'] at h; omega
      rw [hnum, hr']
      exact ⟨q / 2 ^ s, by ring⟩
    have h4 : q / 2 ^ s + 1 ≤ r / 2 ^ s := by omega
    calc (q / 2 ^ s + 1) * 2 ^ s ≤ r / 2 ^ s * 2 ^ s := Nat.mul_le_mul_right _ h4
      _ = r := Nat.div_mul_cancel hGr

theorem isRep_zero : IsRep 0 := by
  unfold IsRep
  exact dvd_zero _

theorem roundNat_of_rep {k : Nat} (h : IsRep k) : roundNat k 1 = k :=
  le_antisymm (roundNat_le (by norm_num) h (by simp)) (roundNat_ge (by norm_num) h (by simp))


theorem ilog2_mul_pow {m : Nat} (hm : m ≠ 0) (e : Nat) : ilog2 (m * 2 ^ e) = ilog2 m + e := by
  apply ilog2_unique
  · rw [pow_add]
    exact Nat.mul_le_mul_right _ (pow_ilog2_le hm)
  · have h := lt_pow_ilog2 m
    have h2 : 0 < 2 ^ e := by positivity
    calc m * 2 ^ e < 2 ^ (ilog2 m + 1) * 2 ^ e := Nat.mul_lt_mul_of_pos_right h h2
      _ = 2 ^ (ilog2 m + e + 1) := by rw [← pow_add]; congr 1; omega

theorem ilog2_lt_of_lt_pow {m k : Nat} (hm : m ≠ 0) (h : m < 2 ^ k) : ilog2 m < k := by
  rw [ilog2_eq]
  exact Nat.log_lt_of_lt_pow hm h

theorem isRep_mul_pow {m : Nat} (h : m < 2 ^ 53) (e : Nat) : IsRep (m * 2 ^ e) := by
  by_cases hm : m = 0
  · subst hm
    simpa using isRep_zero
  · unfold IsRep gridExp
    rw [ilog2_mul_pow hm]
    have hl := ilog2_lt_of_lt_pow hm h
    have h1 : 2 ^ (ilog2 m + e - 52) ∣ 2 ^ e := Nat.pow_dvd_pow 2 (by omega)
    exact dvd_trans h1 (Dvd.intro_left m rfl)

theorem isRep_pow (k : Nat) : IsRep (2 ^ k) := by
  unfold IsRep gridExp
  rw [ilog2_eq, Nat.log_pow (by norm_num)]
  exact Nat.pow_dvd_pow 2 (by omega)

theorem isRep_int_units {m : Nat} (h : m ≤ 2 ^ 53) : IsRep (m * U) := by
  unfold U
  rcases Nat.lt_or_ge m (2 ^ 53) with hlt | hge
  · exact isRep_mul_pow hlt 1074
  · have : m = 2 ^ 53 := le_antisymm h hge
    rw [this, ← pow_add]
    exact isRep_pow _

theorem rne_zero (b : Nat) : rne 0 b = 0 := by
  unfold rne
  simp

theorem roundNat_zero (den : Nat) : roundNat 0 den = 0 := by
  unfold roundNat
  simp [rne_zero]

theorem round_zero (den : Nat) : round 0 den = 0 := by
  unfold round
  simp [roundNat_zero]

theorem round_of_isF64 {a : Int} (h : IsF64 a) : round a 1 = a := by
  unfold round
  unfold IsF64 at h
  rw [roundNat_of_rep h]
  split_ifs with hneg <;> omega

theorem round_ge {r num : Int} {den : Nat} (hden : 0 < den) (hr : IsF64 r)
    (h : r * den ≤ num) : r ≤ round num den := by
  unfold IsF64 at hr
  unfold round
  split_ifs with hneg
  · have hr0 : r < 0 := by
      by_contra hc
      have : 0 ≤ r * (den : Int) := mul_nonneg (by omega) (by omega)
      omega
    have h1 : num.natAbs ≤ r.natAbs * den := by
      zify
      rw [abs_of_neg hneg, abs_of_neg hr0]
      linarith
    have h2 := roundNat_le hden hr h1
    omega
  · by_cases hr0 : r ≤ 0
    · omega
    · have h1 : r.natAbs * den ≤ num.natAbs := by
        zify
        rw [abs_of_nonneg (by omega : 0 ≤ num), abs_of_pos (by omega : 0 < r)]
        exact h
      have h2 := roundNat_ge hden hr h1
      omega

theorem round_neg (num : Int) (den : Nat) : round (-num) den = -round num den := by
  unfold round
  rcases lt_trichotomy num 0 with h | h | h
  · have h1 : ¬ (-num < 0) := by omega
    simp [h, h1]
  · subst h
    simp [roundNat_zero]
  · have h1 : -num < 0 := by omega
    have h2 : ¬ (num < 0) := by omega
    simp [h1, h2]

theorem isF64_neg {a : Int} (h : IsF64 a) : IsF64 (-a) := by
  unfold IsF64 at *
  simpa using h

theorem round_le {r num : Int} {den : Nat} (hden : 0 < den) (hr : IsF64 r)
    (h : num ≤ r * den) : round num den ≤ r := by
  have h1 : -r ≤ round (-num) den := round_ge hden (isF64_neg hr) (by linarith)
  rw [round_neg] at h1
  omega

theorem isF64_int_units {i : Int} (h : |i| ≤ 2 ^ 53) : IsF64 (i * U) := by
  unfold IsF64
  rw [Int.natAbs_mul]
  have : ((U : Nat) : Int).natAbs = U := by simp
  rw [this]
  apply isRep_int_units
  zify
  exact h

theorem ofInt_exact {i : Int} (h : |i| ≤ 2 ^ 53) : ofInt i = i * U := by
  unfold ofInt
  exact round_of_isF64 (isF64_int_units h)

theorem U_pos : 0 < U := by unfold U; positivity

theorem toInt_units {i : Int} (h1 : -(2 : Int) ^ 63 ≤ i) (h2 : i < 2 ^ 63) : toInt (i * U) = i := by
  unfold toInt
  have hU : ((U : Nat) : Int) ≠ 0 := by
    have := U_pos
    omega
  rw [Int.mul_tdiv_cancel i hU]
  rw [if_pos ⟨h1, h2⟩]

theorem fmul_zero_left (b : Int) : fmul 0 b = 0 := by
  unfold fmul
  simp [round_zero]

theorem fmul_zero_right (a : Int) : fmul a 0 = 0 := by
  unfold fmul
  simp [round_zero]

theorem ofInt_zero : ofInt 0 = 0 := by
  unfold ofInt
  simp [round_zero]

theorem toInt_zero : toInt 0 = 0 := by
  have := toInt_units (i := 0) (by norm_num) (by norm_num)
  simpa using this

theorem isRep_le_mul_pow {m : Nat} (h : m ≤ 2 ^ 53) (e : Nat) : IsRep (m * 2 ^ e) := by
  rcases Nat.lt_or_ge m (2 ^ 53) with hlt | hge
  · exact isRep_mul_pow hlt e
  · have : m = 2 ^ 53 := le_antisymm h hge
    rw [this, ← pow_add]
    exact isRep_pow _

theorem isRep_roundNat (num den : Nat) : IsRep (roundNat num den) := by
  unfold roundNat
  set q := num / den with hq
  set s := gridExp q with hs
  apply isRep_le_mul_pow
  have h1 : rne num (den * 2 ^ s) ≤ q / 2 ^ s + 1 := by
    have := rne_le num (den * 2 ^ s)
    rwa [← Nat.div_div_eq_div_mul] at this
  have h2 : q / 2 ^ s < 2 ^ 53 := by
    rw [Nat.div_lt_iff_lt_mul (by positivity), ← pow_add]
    have h3 := lt_pow_ilog2 q
    have h4 : ilog2 q + 1 ≤ 53 + s := by rw [hs]; unfold gridExp; omega
    exact lt_of_lt_of_le h3 (Nat.pow_le_pow_right (by norm_num) h4)
  omega

theorem isF64_round (num : Int) (den : Nat) : IsF64 (round num den) := by
  unfold IsF64 round
  split_ifs
  · simpa using isRep_roundNat _ _
  · simpa using isRep_roundNat _ _

theorem isF64_zero : IsF64 0 := by
  unfold IsF64
  simpa using isRep_zero

theorem isF64_U : IsF64 (U : Int) := by
  have := isF64_int_units (i := 1) (by norm_num)
  simpa using this

theorem round_nonneg {num : Int} {den : Nat} (hden : 0 < den) (h : 0 ≤ num) :
    0 ≤ round num den :=
  round_ge hden isF64_zero (by simpa using h)

theorem round_nonpos {num : Int} {den : Nat} (hden : 0 < den) (h : num ≤ 0) :
    round num den ≤ 0 :=
  round_le hden isF64_zero (by simpa using h)

theorem toInt_of_bounds {s lo hi : Int} (hlo : lo * U ≤ s) (hhi : s ≤ hi * U)
    (h1 : -(2 : Int) ^ 63 ≤ lo) (h2 : hi < 2 ^ 63) : lo ≤ toInt s ∧ toInt s ≤ hi := by
  have hU : (0 : Int) < U := by exact_mod_cast U_pos
  have key : lo ≤ Int.tdiv s U ∧ Int.tdiv s U ≤ hi := by
    rcases le_or_lt 0 s with hs | hs
    · rw [Int.tdiv_eq_ediv hs hU.le]
      constructor
      · exact Int.le_ediv_of_mul_le hU hlo
      · have : s / (U : Int) < hi + 1 := Int.ediv_lt_of_lt_mul hU (by nlinarith)
        omega
    · have hneg : Int.tdiv s U = -((-s) / (U : Int)) := by
        have := Int.neg_tdiv (-s) (U : Int)
        rw [neg_neg] at this
        rw [this, Int.tdiv_eq_ediv (by omega) hU.le]
      rw [hneg]
      constructor
      · have : (-s) / (U : Int) < -lo + 1 := Int.ediv_lt_of_lt_mul hU (by nlinarith)
        omega
      · have : -hi ≤ (-s) / (U : Int) := Int.le_ediv_of_mul_le hU (by nlinarith)
        omega
  unfold toInt
  rw [if_pos ⟨by omega, by omega⟩]
  exact key

theorem toInt_nonneg_eq {s : Int} (hs : 0 ≤ s) (h : s < 2 ^ 63 * U) :
    toInt s = s / (U : Int) ∧ 0 ≤ s / (U : Int) ∧ s / (U : Int) < 2 ^ 63 := by
  have hU : (0 : Int) < U := by exact_mod_cast U_pos
  have h0 : 0 ≤ s / (U : Int) := Int.ediv_nonneg hs hU.le
  have h1 : s / (U : Int) < 2 ^ 63 := Int.ediv_lt_of_lt_mul hU h
  refine ⟨?_, h0, h1⟩
  unfold toInt
  rw [Int.tdiv_eq_ediv hs hU.le, if_pos ⟨by omega, h1⟩]

theorem le_pred_one {a : Int} (hf : IsF64 a) (h0 : 0 ≤ a) (h1 : a < U) :
    a ≤ (((2 ^ 53 - 1) * 2 ^ 1021 : Nat) : Int) := by
  unfold IsF64 IsRep at hf
  obtain ⟨k, hk⟩ : ∃ k : Nat, a = k := ⟨a.toNat, by omega⟩
  subst hk
  simp only [Int.natAbs_ofNat] at hf
  have h1' : k < 2 ^ 1074 := by
    have : (k : Int) < ((2 ^ 1074 : Nat) : Int) := h1
    exact_mod_cast this
  have goal : k ≤ (2 ^ 53 - 1) * 2 ^ 1021 := by
    rcases Nat.lt_or_ge k (2 ^ 1073) with hlt | hge
    · have : (2 : Nat) ^ 1073 ≤ (2 ^ 53 - 1) * 2 ^ 1021 := by norm_num
      omega
    · have hl : ilog2 k = 1073 := ilog2_unique hge h1'
      have hg : gridExp k = 1021 := by unfold gridExp; rw [hl]
      rw [hg] at hf
      obtain ⟨c, hc⟩ := hf
      have hc53 : c < 2 ^ 53 := by
        by_contra hcon
        have : 2 ^ 1021 * 2 ^ 53 ≤ 2 ^ 1021 * c := Nat.mul_le_mul_left _ (by omega)
        have e : (2 : Nat) ^ 1021 * 2 ^ 53 = 2 ^ 1074 := by rw [← pow_add]
        omega
      rw [hc, mul_comm]
      exact Nat.mul_le_mul_right _ (by omega)
  exact Int.ofNat_le.2 goal

end F64

/-! ## Strings -/

theorem stringsSplit_cons (sep c : Char) (cs : Str) :
    stringsSplit sep (c :: cs) =
      if c = sep then [] :: stringsSplit sep cs
      else
        match stringsSplit sep cs with
        | [] => [[c]]
        | h :: t => (c :: h) :: t := rfl

theorem parseUint_cons (c : Char) (cs : Str) (n : Nat) :
    parseUint (c :: cs) n =
      if c.isDigit then
        if 1844674407370955162 ≤ n then ParseResult.outOfRange
        else if 2 ^ 64 - 1 < n * 10 + (c.toNat - 48) then ParseResult.outOfRange
        else parseUint cs (n * 10 + (c.toNat - 48))
      else ParseResult.malformed := rfl

theorem stringsSplit_ne_nil (sep : Char) (s : Str) : stringsSplit sep s ≠ [] := by
  induction s with
  | nil => simp [stringsSplit]
  | cons c cs ih =>
    unfold stringsSplit
    split_ifs
    · simp
    · split <;> simp

theorem stringsSplit_of_not_mem (sep : Char) (s : Str) (h : sep ∉ s) :
    stringsSplit sep s = [s] := by
  induction s with
  | nil => simp [stringsSplit]
  | cons c cs ih =>
    have hc : c ≠ sep := fun e => h (by simp [e])
    have hcs : sep ∉ cs := fun e => h (by simp [e])
    unfold stringsSplit
    rw [if_neg hc, ih hcs]

theorem stringsSplit_append (sep : Char) (a rest : Str) (h : sep ∉ a) :
    stringsSplit sep (a ++ sep :: rest) = a :: stringsSplit sep rest := by
  induction a with
  | nil => simp [stringsSplit]
  | cons c cs ih =>
    have hc : c ≠ sep := fun e => h (by simp [e])
    have hcs : sep ∉ cs := fun e => h (by simp [e])
    show stringsSplit sep (c :: (cs ++ sep :: rest)) = _
    rw [stringsSplit_cons, if_neg hc, ih hcs]

theorem digitChar_isDigit {d : Nat} (h : d < 10) :
    (Nat.digitChar d).isDigit = true ∧ (Nat.digitChar d).toNat - 48 = d := by
  interval_cases d <;> exact ⟨rfl, rfl⟩

theorem parseUint_toDigitsCore (f : Nat) : ∀ (n : Nat) (acc : Str), n < f → n < 2 ^ 64 →
    parseUint (Nat.toDigitsCore 10 f n acc) 0 = parseUint acc n := by
  induction f with
  | zero => intro n acc h; omega
  | succ f ih =>
    intro n acc hf hn
    unfold Nat.toDigitsCore
    have hd := digitChar_isDigit (Nat.mod_lt n (by norm_num : 0 < 10))
    by_cases h0 : n / 10 = 0
    · simp only [h0, if_true]
      have hn10 : n % 10 = n := Nat.mod_eq_of_lt (by omega)
      rw [hn10] at hd ⊢
      rw [parseUint_cons, if_pos hd.1, if_neg (by norm_num), if_neg (by rw [hd.2]; omega), hd.2]
      simp
    · simp only [h0, if_false]
      rw [ih (n / 10) _ (by omega) (by omega)]
      rw [parseUint_cons, if_pos hd.1, if_neg (by omega), if_neg (by rw [hd.2]; omega), hd.2]
      congr 1
      omega

theorem parseUint_toDigits {n : Nat} (h : n < 2 ^ 64) :
    parseUint (Nat.toDigits 10 n) 0 = ParseResult.ok n := by
  unfold Nat.toDigits
  rw [parseUint_toDigitsCore (n + 1) n [] (by omega) h]
  rfl

theorem toDigitsCore_digits (f : Nat) : ∀ (n : Nat) (acc : Str),
    ∀ c ∈ Nat.toDigitsCore 10 f n acc, c.isDigit = true ∨ c ∈ acc := by
  induction f with
  | zero => intro n acc c hc; right; simpa [Nat.toDigitsCore] using hc
  | succ f ih =>
    intro n acc c hc
    unfold Nat.toDigitsCore at hc
    have hd := digitChar_isDigit (Nat.mod_lt n (by norm_num : 0 < 10))
    by_cases h0 : n / 10 = 0
    · simp only [h0, if_true, List.mem_cons] at hc
      rcases hc with rfl | hc
      · exact Or.inl hd.1
      · exact Or.inr hc
    · simp only [h0, if_false] at hc
      rcases ih _ _ c hc with h | h
      · exact Or.inl h
      · rcases List.mem_cons.1 h with rfl | h
        · exact Or.inl hd.1
        · exact Or.inr h

theorem toDigits_digits (n : Nat) : ∀ c ∈ Nat.toDigits 10 n, c.isDigit = true := by
  intro c hc
  rcases toDigitsCore_digits _ _ _ c hc with h | h
  · exact h
  · simp at h

theorem toDigitsCore_ne_nil (f n : Nat) (acc : Str) : Nat.toDigitsCore 10 (f + 1) n acc ≠ [] := by
  induction f generalizing n acc with
  | zero =>
    unfold Nat.toDigitsCore
    dsimp only
    split_ifs <;> simp [Nat.toDigitsCore]
  | succ f ih =>
    unfold Nat.toDigitsCore
    dsimp only
    split_ifs
    · simp
    · exact ih _ _

theorem toDigits_ne_nil (n : Nat) : Nat.toDigits 10 n ≠ [] := toDigitsCore_ne_nil n n []

theorem atoi_intToStr {i : Int} (h1 : -(2 : Int) ^ 63 ≤ i) (h2 : i < 2 ^ 63) :
    atoi (intToStr i) = i := by
  unfold intToStr
  have hnat : i.natAbs < 2 ^ 64 := by omega
  have hp := parseUint_toDigits hnat
  have hne := toDigits_ne_nil i.natAbs
  split_ifs with hneg
  · simp only [atoi]
    simp only [or_true, if_true, if_neg hne, hp]
    have : ¬ (2 ^ 63 < i.natAbs) := by omega
    simp only [this, if_false]
    omega
  · cases hds : Nat.toDigits 10 i.natAbs with
    | nil => exact absurd hds hne
    | cons c cs =>
      have hc : c.isDigit = true := toDigits_digits i.natAbs c (by simp [hds])
      have hplus : c ≠ '+' := by rintro rfl; simp [Char.isDigit] at hc
      have hminus : c ≠ '-' := by rintro rfl; simp [Char.isDigit] at hc
      simp only [atoi]
      rw [hds] at hp
      simp only [hplus, hminus, or_self, if_false, hp]
      simp only [reduceCtorEq, if_false]
      have : ¬ ((2:Nat) ^ 63 ≤ i.natAbs) := by omega
      simp only [this, if_false]
      omega

theorem intToStr_no_semi (i : Int) : ';' ∉ intToStr i := by
  intro h
  unfold intToStr at h
  have key : ∀ n, ';' ∉ Nat.toDigits 10 n := by
    intro n hn
    have := toDigits_digits n _ hn
    simp [Char.isDigit] at this
  split_ifs at h
  · rcases List.mem_cons.1 h with h | h
    · exact absurd h (by decide)
    · exact key _ h
  · exact key _ h

theorem parse_sprintfRGB {r g b : Int} (hr : -(2 : Int) ^ 63 ≤ r ∧ r < 2 ^ 63)
    (hg : -(2 : Int) ^ 63 ≤ g ∧ g < 2 ^ 63) (hb : -(2 : Int) ^ 63 ≤ b ∧ b < 2 ^ 63) :
    parse (sprintfRGB r g b) = (r, g, b) := by
  unfold parse sprintfRGB
  rw [stringsSplit_append _ _ _ (intToStr_no_semi r), stringsSplit_append _ _ _ (intToStr_no_semi g),
    stringsSplit_of_not_mem _ _ (intToStr_no_semi b)]
  simp only [atoi_intToStr hr.1 hr.2, atoi_intToStr hg.1 hg.2, atoi_intToStr hb.1 hb.2]

/-! ## Colour interpolation -/

theorem scaled_zero (len : Nat) : scaled len 0 = 0 := by
  unfold scaled
  exact fmul_zero_left _

theorem frac_zero (len : Nat) : frac len 0 = 0 := by
  unfold frac
  rw [scaled_zero, toInt_zero, ofInt_zero]
  unfold fsub
  simp [round_zero]

theorem idx1_zero (len : Nat) : idx1 len 0 = 0 := by
  unfold idx1
  rw [scaled_zero, toInt_zero]
  simp

theorem idx2_zero {len : Nat} (h : 2 ≤ len) : idx2 len 0 = 1 := by
  unfold idx2
  rw [idx1_zero]
  have h1 : (0 : Int) ≤ 0 + 1 := by norm_num
  have h2 : (0 : Int) ≤ (len : Int) := by omega
  rw [Int.tmod_eq_emod h1 h2, zero_add]
  exact Int.emod_eq_of_lt (by norm_num) (by omega)

theorem blend_zero {c1 : Int} (c2 : Int) (h : |c1| ≤ 2 ^ 53) : blend c1 c2 0 = c1 := by
  unfold blend
  rw [fmul_zero_right, ofInt_exact h]
  unfold fadd
  rw [add_zero, round_of_isF64 (isF64_int_units h)]
  have h' := abs_le.1 h
  exact toInt_units (by omega) (by omega)

/-- C1 (amended): for every palette of length at least 2 whose entry 0 parses to channels of
magnitude at most `2^53`, `getInterpolatedRGB` at offset `0.0` returns the parsed channels of
entry 0 printed anew with `%d;%d;%d`; the result is entry 0 itself exactly when entry 0 is that
rendering of its own channels, as is every entry `r;g;b` printed from three integers of
magnitude at most `2^53`. -/
theorem getInterpolatedRGB_zero_canonical (colors : List Str) (s0 : Str)
    (hlen : 2 ≤ colors.length) (h0 : colors[0]? = some s0) (hc : ChannelsWithin (2 ^ 53) s0) :
    getInterpolatedRGB colors 0
        = some (sprintfRGB (parse s0).1 (parse s0).2.1 (parse s0).2.2) ∧
      (getInterpolatedRGB colors 0 = colors[0]?
        ↔ s0 = sprintfRGB (parse s0).1 (parse s0).2.1 (parse s0).2.2) ∧
      (∀ r g b : Int, |r| ≤ 2 ^ 53 → |g| ≤ 2 ^ 53 → |b| ≤ 2 ^ 53 → s0 = sprintfRGB r g b →
        getInterpolatedRGB colors 0 = colors[0]?) := by
  obtain ⟨s2, h1⟩ : ∃ s2, colors[1]? = some s2 :=
    ⟨colors[1], List.getElem?_eq_getElem (by omega)⟩
  have hres : getInterpolatedRGB colors 0
      = some (sprintfRGB (parse s0).1 (parse s0).2.1 (parse s0).2.2) := by
    unfold getInterpolatedRGB
    rw [if_neg (by omega), if_neg (by omega), idx1_zero, idx2_zero hlen, frac_zero]
    have e0 : index colors 0 = some s0 := by simp [index, h0]
    have e1 : index colors 1 = some s2 := by simp [index, h1]
    rw [e0, e1]
    simp only [blend_zero _ hc.1, blend_zero _ hc.2.1, blend_zero _ hc.2.2]
  refine ⟨hres, ?_, ?_⟩
  · rw [hres, h0]
    constructor
    · intro h
      exact (Option.some.inj h).symm
    · intro h
      exact congrArg some h.symm
  · intro r g b hr hg hb hs
    have hr' := abs_le.1 hr
    have hg' := abs_le.1 hg
    have hb' := abs_le.1 hb
    have hp : parse (sprintfRGB r g b) = (r, g, b) :=
      parse_sprintfRGB ⟨by omega, by omega⟩ ⟨by omega, by omega⟩ ⟨by omega, by omega⟩
    rw [hres, h0, hs, hp]

/-- Witness of C1: a palette of two entries, the first one with leading zeros. -/
theorem getInterpolatedRGB_zero_canonical_witness :
    getInterpolatedRGB ["010;020;030".toList, "110;220;40".toList] 0
        = some (sprintfRGB (parse "010;020;030".toList).1 (parse "010;020;030".toList).2.1
            (parse "010;020;030".toList).2.2) ∧
      (getInterpolatedRGB ["010;020;030".toList, "110;220;40".toList] 0
          = ["010;020;030".toList, "110;220;40".toList][0]?
        ↔ "010;020;030".toList = sprintfRGB (parse "010;020;030".toList).1
            (parse "010;020;030".toList).2.1 (parse "010;020;030".toList).2.2) ∧
      (∀ r g b : Int, |r| ≤ 2 ^ 53 → |g| ≤ 2 ^ 53 → |b| ≤ 2 ^ 53 →
        "010;020;030".toList = sprintfRGB r g b →
        getInterpolatedRGB ["010;020;030".toList, "110;220;40".toList] 0
          = ["010;020;030".toList, "110;220;40".toList][0]?) :=
  getInterpolatedRGB_zero_canonical _ "010;020;030".toList (by decide) (by decide) (by decide)

/-- An entry that is the rendering of three integers is returned unchanged at offset `0.0`, also
with a channel beyond the colour range such as `2^53`. -/
theorem getInterpolatedRGB_zero_returns_canonical :
    getInterpolatedRGB ["9007199254740992;20;30".toList, "110;220;40".toList] 0
      = ["9007199254740992;20;30".toList, "110;220;40".toList][0]? := by
  decide

/-- Counterexample to C1 as stated: an entry with leading zeros is returned reformatted. -/
theorem getInterpolatedRGB_zero_reformats :
    getInterpolatedRGB ["010;020;030".toList, "0;0;0".toList] 0 = some "10;20;30".toList ∧
      getInterpolatedRGB ["010;020;030".toList, "0;0;0".toList] 0
        ≠ ["010;020;030".toList, "0;0;0".toList][0]? := by
  decide

theorem wrapInt_of_small {x : Int} (h1 : -(2 : Int) ^ 63 ≤ x) (h2 : x < 2 ^ 63) : wrapInt x = x := by
  unfold wrapInt
  omega

theorem isF64_pow_units (k : Nat) : IsF64 ((2 : Int) ^ k * U) := by
  unfold IsF64
  have : ((2 : Int) ^ k * U).natAbs = 2 ^ (k + 1074) := by
    rw [Int.natAbs_mul, Int.natAbs_pow, pow_add]
    simp [U]
  rw [this]
  exact isRep_pow _

theorem ofInt_len_bounds {len : Nat} (h : len < 2 ^ 63) :
    0 ≤ ofInt len ∧ ofInt len ≤ 2 ^ 63 * U := by
  unfold ofInt
  constructor
  · exact round_nonneg (by norm_num) (by positivity)
  · apply round_le (by norm_num) (isF64_pow_units 63)
    have : (len : Int) ≤ 2 ^ 63 := by exact_mod_cast h.le
    have hU : (0 : Int) ≤ U := by positivity
    simpa using mul_le_mul_of_nonneg_right this hU

theorem scaled_bounds {len : Nat} {offset : Int} (hlen : len < 2 ^ 63) (hf : IsF64 offset)
    (h0 : 0 ≤ offset) (h1 : offset < U) :
    0 ≤ scaled len offset ∧ scaled len offset < 2 ^ 63 * U ∧ IsF64 (scaled len offset) := by
  obtain ⟨hn0, hn1⟩ := ofInt_len_bounds hlen
  have hU : (0 : Int) < U := by exact_mod_cast U_pos
  unfold scaled fmul
  refine ⟨round_nonneg U_pos (mul_nonneg h0 hn0), ?_, isF64_round _ _⟩
  have hA := le_pred_one hf h0 h1
  set A : Nat := (2 ^ 53 - 1) * 2 ^ 1021 with hAdef
  have hrep : IsF64 (((A * 2 ^ 63 : Nat) : Int)) := by
    unfold IsF64
    rw [Int.natAbs_ofNat, hAdef, mul_assoc, ← pow_add]
    exact isRep_mul_pow (by norm_num) _
  have hle : round (offset * ofInt len) U ≤ ((A * 2 ^ 63 : Nat) : Int) := by
    apply round_le U_pos hrep
    have : offset * ofInt len ≤ (A : Int) * (2 ^ 63 * U) :=
      mul_le_mul hA hn1 hn0 (by positivity)
    push_cast
    linarith
  have hlt : ((A * 2 ^ 63 : Nat) : Int) < 2 ^ 63 * U := by
    have : A * 2 ^ 63 < 2 ^ 63 * U := by
      have hAU : A < U := by
        rw [hAdef]
        unfold U
        have e : (2 : Nat) ^ 1074 = 2 ^ 53 * 2 ^ 1021 := by rw [← pow_add]
        rw [e]
        exact Nat.mul_lt_mul_of_pos_right (by norm_num) (by positivity)
      nlinarith
    exact_mod_cast this
  exact lt_of_le_of_lt hle hlt

theorem dvd_U_of_large {p : Int} (hf : IsF64 p) (h : 2 ^ 53 * (U : Int) ≤ p) : (U : Int) ∣ p := by
  unfold IsF64 IsRep at hf
  have hk : 2 ^ 53 * U ≤ p.natAbs := by
    have : ((2 ^ 53 * U : Nat) : Int) ≤ p := by push_cast; exact h
    omega
  have hl : 53 + 1074 ≤ ilog2 p.natAbs := by
    have h1 : ilog2 (2 ^ 53 * U) = 53 + 1074 := by
      unfold U
      rw [← pow_add, ilog2_eq, Nat.log_pow (by norm_num)]
    rw [← h1]
    exact ilog2_mono hk
  have hg : 1074 ≤ gridExp p.natAbs := by unfold gridExp; omega
  have hd : U ∣ p.natAbs := dvd_trans (Nat.pow_dvd_pow 2 hg) hf
  exact Int.natCast_dvd.2 hd

theorem frac_bounds {len : Nat} {offset : Int} (hlen : len < 2 ^ 63) (hf : IsF64 offset)
    (h0 : 0 ≤ offset) (h1 : offset < U) :
    0 ≤ frac len offset ∧ frac len offset ≤ U := by
  obtain ⟨hp0, hp1, hpf⟩ := scaled_bounds hlen hf h0 h1
  obtain ⟨ht, ht0, ht1⟩ := toInt_nonneg_eq hp0 hp1
  have hU : (0 : Int) < U := by exact_mod_cast U_pos
  unfold frac fsub
  rw [ht]
  set p := scaled len offset with hp
  have hdm : (U : Int) * (p / U) + p % U = p := Int.ediv_add_emod p U
  have hm0 : 0 ≤ p % (U : Int) := Int.emod_nonneg p hU.ne'
  have hm1 : p % (U : Int) < U := Int.emod_lt_of_pos p hU
  rcases le_or_lt (p / (U : Int)) (2 ^ 53) with hs | hl
  · have hex : ofInt (p / (U : Int)) = p / (U : Int) * U :=
      ofInt_exact (by rw [abs_of_nonneg ht0]; exact hs)
    rw [hex]
    constructor
    · exact round_nonneg (by norm_num) (by nlinarith)
    · exact round_le (by norm_num) isF64_U (by push_cast; nlinarith)
  · have hd : (U : Int) ∣ p := dvd_U_of_large hpf (by nlinarith)
    have hpe : p / (U : Int) * U = p := Int.ediv_mul_cancel hd
    have hex : ofInt (p / (U : Int)) = p := by
      unfold ofInt
      rw [hpe]
      exact round_of_isF64 hpf
    rw [hex, sub_self, round_zero]
    exact ⟨le_refl _, hU.le⟩

theorem blend_between {c1 c2 fr : Int} (h1 : |c1| ≤ 2 ^ 52) (h2 : |c2| ≤ 2 ^ 52)
    (hf0 : 0 ≤ fr) (hf1 : fr ≤ U) :
    blend c1 c2 fr = toInt (fadd (ofInt c1) (fmul (ofInt (c2 - c1)) fr)) ∧
      min c1 c2 ≤ blend c1 c2 fr ∧ blend c1 c2 fr ≤ max c1 c2 := by
  have a1 := abs_le.1 h1
  have a2 := abs_le.1 h2
  have hU : (0 : Int) < U := by exact_mod_cast U_pos
  have hw : wrapInt (c2 - c1) = c2 - c1 := wrapInt_of_small (by omega) (by omega)
  have hd : |c2 - c1| ≤ 2 ^ 53 := abs_le.2 ⟨by omega, by omega⟩
  have e1 : ofInt c1 = c1 * U := ofInt_exact (le_trans h1 (by norm_num))
  have ed : ofInt (c2 - c1) = (c2 - c1) * U := ofInt_exact hd
  have r1 : IsF64 (c1 * U) := isF64_int_units (le_trans h1 (by norm_num))
  have r2 : IsF64 (c2 * U) := isF64_int_units (le_trans h2 (by norm_num))
  have rd : IsF64 ((c2 - c1) * U) := isF64_int_units hd
  unfold blend
  rw [hw]
  refine ⟨rfl, ?_⟩
  rw [e1, ed]
  unfold fadd fmul
  set prod := round ((c2 - c1) * U * fr) U with hprod
  rcases le_or_lt c1 c2 with hle | hlt
  · have p0 : 0 ≤ prod := round_nonneg U_pos (mul_nonneg (mul_nonneg (by omega) hU.le) hf0)
    have p1 : prod ≤ (c2 - c1) * U := round_le U_pos rd (by
      have : 0 ≤ (c2 - c1) * (U : Int) := mul_nonneg (by omega) hU.le
      nlinarith)
    have s0 : c1 * U ≤ round (c1 * U + prod) 1 := round_ge (by norm_num) r1 (by push_cast; linarith)
    have s1 : round (c1 * U + prod) 1 ≤ c2 * U := round_le (by norm_num) r2 (by push_cast; linarith)
    have := toInt_of_bounds s0 s1 (by omega) (by omega)
    rw [min_eq_left hle, max_eq_right hle]
    exact this
  · have p0 : prod ≤ 0 := round_nonpos U_pos (by
      have : (c2 - c1) * (U : Int) ≤ 0 := mul_nonpos_of_nonpos_of_nonneg (by omega) hU.le
      exact mul_nonpos_of_nonpos_of_nonneg this hf0)
    have p1 : (c2 - c1) * U ≤ prod := round_ge U_pos rd (by
      have : (c2 - c1) * (U : Int) ≤ 0 := mul_nonpos_of_nonpos_of_nonneg (by omega) hU.le
      nlinarith)
    have s0 : c2 * U ≤ round (c1 * U + prod) 1 := round_ge (by norm_num) r2 (by push_cast; linarith)
    have s1 : round (c1 * U + prod) 1 ≤ c1 * U := round_le (by norm_num) r1 (by push_cast; linarith)
    have := toInt_of_bounds s0 s1 (by omega) (by omega)
    rw [min_eq_right hlt.le, max_eq_left hlt.le]
    exact this

theorem idx_spec {len : Nat} {offset : Int} (hlen2 : 2 ≤ len) (hlen : len < 2 ^ 63)
    (hf : IsF64 offset) (h0 : 0 ≤ offset) (h1 : offset < U) :
    ∃ i : Nat, i < len ∧ i = (toInt (scaled len offset)).toNat % len ∧
      idx1 len offset = i ∧ idx2 len offset = ((i + 1) % len : Nat) := by
  obtain ⟨hp0, hp1, _⟩ := scaled_bounds hlen hf h0 h1
  obtain ⟨ht, ht0, _⟩ := toInt_nonneg_eq hp0 hp1
  have hlenpos : 0 < len := by omega
  refine ⟨(toInt (scaled len offset)).toNat % len, Nat.mod_lt _ hlenpos, rfl, ?_, ?_⟩
  · unfold idx1
    rw [ht] at *
    rw [Int.tmod_eq_emod ht0 (by omega)]
    have : scaled len offset / (U : Int) = ((scaled len offset / (U : Int)).toNat : Int) := by omega
    rw [this]
    simp
  · have e1 : idx1 len offset = (((toInt (scaled len offset)).toNat % len : Nat) : Int) := by
      unfold idx1
      rw [ht] at *
      rw [Int.tmod_eq_emod ht0 (by omega)]
      have : scaled len offset / (U : Int) = ((scaled len offset / (U : Int)).toNat : Int) := by
        omega
      rw [this]
      simp
    unfold idx2
    rw [e1, Int.tmod_eq_emod (by omega) (by omega)]
    push_cast
    rfl

theorem index_natCast (xs : List Str) (i : Nat) : index xs (i : Int) = xs[i]? := by
  unfold index
  simp

/-- C2 (amended): for every palette of length `n ≥ 2` whose parsed channels have magnitude at
most `2^52` (all RGB channels do) and every offset in `(0,1)`, with `i = floor(offset*n) mod n`
and `j = (i+1) mod n`, `getInterpolatedRGB` returns `r;g;b` where each channel is the truncation
of `c_i + (c_j - c_i)*frac` and lies between `c_i` and `c_j` (inclusive). -/
theorem getInterpolatedRGB_between (colors : List Str) (offset : Int)
    (hlen : 2 ≤ colors.length) (hlen63 : colors.length < 2 ^ 63)
    (hf : IsF64 offset) (h0 : 0 < offset) (h1 : offset < U)
    (hch : ∀ s ∈ colors, ChannelsWithin (2 ^ 52) s) :
    ∃ (i j : Nat) (si sj : Str), i = (toInt (scaled colors.length offset)).toNat % colors.length ∧
      j = (i + 1) % colors.length ∧ colors[i]? = some si ∧ colors[j]? = some sj ∧
      getInterpolatedRGB colors offset =
        some (sprintfRGB (truncLerp (parse si).1 (parse sj).1 (frac colors.length offset))
          (truncLerp (parse si).2.1 (parse sj).2.1 (frac colors.length offset))
          (truncLerp (parse si).2.2 (parse sj).2.2 (frac colors.length offset))) ∧
      (min (parse si).1 (parse sj).1 ≤ truncLerp (parse si).1 (parse sj).1 (frac colors.length offset) ∧
        truncLerp (parse si).1 (parse sj).1 (frac colors.length offset) ≤ max (parse si).1 (parse sj).1) ∧
      (min (parse si).2.1 (parse sj).2.1 ≤ truncLerp (parse si).2.1 (parse sj).2.1 (frac colors.length offset) ∧
        truncLerp (parse si).2.1 (parse sj).2.1 (frac colors.length offset) ≤ max (parse si).2.1 (parse sj).2.1) ∧
      (min (parse si).2.2 (parse sj).2.2 ≤ truncLerp (parse si).2.2 (parse sj).2.2 (frac colors.length offset) ∧
        truncLerp (parse si).2.2 (parse sj).2.2 (frac colors.length offset) ≤ max (parse si).2.2 (parse sj).2.2) := by
  obtain ⟨i, hi, hidef, hi1, hi2⟩ := idx_spec hlen hlen63 hf h0.le h1
  have hj : (i + 1) % colors.length < colors.length := Nat.mod_lt _ (by omega)
  obtain ⟨hfr0, hfr1⟩ := frac_bounds hlen63 hf h0.le h1
  have ei : colors[i]? = some colors[i] := List.getElem?_eq_getElem hi
  have ej : colors[(i + 1) % colors.length]? = some colors[(i + 1) % colors.length] :=
    List.getElem?_eq_getElem hj
  obtain ⟨ci1, ci2, ci3⟩ := hch _ (List.getElem_mem hi)
  obtain ⟨cj1, cj2, cj3⟩ := hch _ (List.getElem_mem hj)
  obtain ⟨b1, b1'⟩ := blend_between ci1 cj1 hfr0 hfr1
  obtain ⟨b2, b2'⟩ := blend_between ci2 cj2 hfr0 hfr1
  obtain ⟨b3, b3'⟩ := blend_between ci3 cj3 hfr0 hfr1
  refine ⟨i, (i + 1) % colors.length, colors[i], colors[(i + 1) % colors.length], hidef, rfl,
    ei, ej, ?_, ?_, ?_, ?_⟩
  · unfold getInterpolatedRGB
    rw [if_neg (by omega), if_neg (by omega), hi1, hi2, index_natCast, index_natCast, ei, ej]
    simp only [b1, b2, b3, truncLerp]
  · unfold truncLerp; rw [← b1]; exact b1'
  · unfold truncLerp; rw [← b2]; exact b2'
  · unfold truncLerp; rw [← b3]; exact b3'

/-- Witness of C2: a palette of two RGB colours at offset `0.25`. -/
theorem getInterpolatedRGB_between_witness :
    ∃ (i j : Nat) (si sj : Str),
      i = (toInt (scaled 2 (ofRat 1 4))).toNat % 2 ∧
      j = (i + 1) % 2 ∧ ["10;20;30".toList, "110;220;40".toList][i]? = some si ∧
      ["10;20;30".toList, "110;220;40".toList][j]? = some sj ∧
      getInterpolatedRGB ["10;20;30".toList, "110;220;40".toList] (ofRat 1 4) =
        some (sprintfRGB (truncLerp (parse si).1 (parse sj).1 (frac 2 (ofRat 1 4)))
          (truncLerp (parse si).2.1 (parse sj).2.1 (frac 2 (ofRat 1 4)))
          (truncLerp (parse si).2.2 (parse sj).2.2 (frac 2 (ofRat 1 4)))) ∧
      (min (parse si).1 (parse sj).1 ≤ truncLerp (parse si).1 (parse sj).1 (frac 2 (ofRat 1 4)) ∧
        truncLerp (parse si).1 (parse sj).1 (frac 2 (ofRat 1 4)) ≤ max (parse si).1 (parse sj).1) ∧
      (min (parse si).2.1 (parse sj).2.1 ≤ truncLerp (parse si).2.1 (parse sj).2.1 (frac 2 (ofRat 1 4)) ∧
        truncLerp (parse si).2.1 (parse sj).2.1 (frac 2 (ofRat 1 4)) ≤ max (parse si).2.1 (parse sj).2.1) ∧
      (min (parse si).2.2 (parse sj).2.2 ≤ truncLerp (parse si).2.2 (parse sj).2.2 (frac 2 (ofRat 1 4)) ∧
        truncLerp (parse si).2.2 (parse sj).2.2 (frac 2 (ofRat 1 4)) ≤ max (parse si).2.2 (parse sj).2.2) :=
  getInterpolatedRGB_between ["10;20;30".toList, "110;220;40".toList] (ofRat 1 4)
    (by decide) (by decide) (by decide) (by decide) (by decide) (by decide)

/-- Counterexample to C2 as stated: both selected entries have red channel `2^53 + 1`, which
`float64` cannot hold, and the returned red channel `2^53` is below both. -/
theorem getInterpolatedRGB_large_channel :
    getInterpolatedRGB ["9007199254740993;0;0".toList, "9007199254740993;0;0".toList] (ofRat 1 4)
        = some (sprintfRGB 9007199254740992 0 0) ∧
      (parse "9007199254740993;0;0".toList).1 = 9007199254740993 ∧
      ¬ (min (parse "9007199254740993;0;0".toList).1 (parse "9007199254740993;0;0".toList).1
          ≤ 9007199254740992) := by
  decide

/-! ## Layout -/

theorem tdiv_two_of_nonneg {x : Int} (h : 0 ≤ x) : Int.tdiv x 2 = x / 2 :=
  Int.tdiv_eq_ediv h (by norm_num)

theorem iadd_of_small {a b : Int} (h1 : -(2 : Int) ^ 63 ≤ a + b) (h2 : a + b < 2 ^ 63) :
    iadd a b = a + b := by
  unfold iadd wrapInt
  omega

theorem isub_of_small {a b : Int} (h1 : -(2 : Int) ^ 63 ≤ a - b) (h2 : a - b < 2 ^ 63) :
    isub a b = a - b := by
  unfold isub wrapInt
  omega

theorem totalCenter_of_small {gap pokeW innerW : Int} (hg : 0 ≤ gap) (hp : 0 ≤ pokeW)
    (hi : 0 ≤ innerW) (h : pokeW + gap + innerW + 2 < 2 ^ 63) :
    totalCenter gap pokeW innerW = pokeW + gap + innerW + 2 := by
  have e1 : iadd pokeW gap = pokeW + gap := iadd_of_small (by omega) (by omega)
  have e2 : iadd (pokeW + gap) innerW = pokeW + gap + innerW :=
    iadd_of_small (by omega) (by omega)
  have e3 : iadd (pokeW + gap + innerW) 2 = pokeW + gap + innerW + 2 :=
    iadd_of_small (by omega) (by omega)
  unfold totalCenter
  rw [e1, e2, e3]

theorem totalLeft_of_small {gap pokeW innerW : Int} (hg : 0 ≤ gap) (hp : 0 ≤ pokeW)
    (hi : 0 ≤ innerW) (h : gap + pokeW + gap + innerW + 2 < 2 ^ 63) :
    totalLeft gap pokeW innerW = gap + pokeW + gap + innerW + 2 := by
  have e1 : iadd gap pokeW = gap + pokeW := iadd_of_small (by omega) (by omega)
  have e2 : iadd (gap + pokeW) gap = gap + pokeW + gap := iadd_of_small (by omega) (by omega)
  have e3 : iadd (gap + pokeW + gap) innerW = gap + pokeW + gap + innerW :=
    iadd_of_small (by omega) (by omega)
  have e4 : iadd (gap + pokeW + gap + innerW) 2 = gap + pokeW + gap + innerW + 2 :=
    iadd_of_small (by omega) (by omega)
  unfold totalLeft
  rw [e1, e2, e3, e4]

/-- The layout of `render` without overflow: for widths that are not negative and whose sum
`gap + pokeW + gap + innerW + 4` fits a 64 bit `int`, the wrapping operations are the exact
ones. -/
theorem renderLayout_of_small (align : String) {gap pokeW innerW termW : Int} (hg : 0 ≤ gap)
    (hp : 0 ≤ pokeW) (hi : 0 ≤ innerW) (ht : 0 ≤ termW) (ht2 : termW < 2 ^ 63)
    (h : gap + pokeW + gap + innerW + 4 < 2 ^ 63) :
    renderLayout align gap pokeW innerW termW =
      if align = "center" then
        if pokeW + gap + innerW + 2 > termW then
          (max 2 (gap - (pokeW + gap + innerW + 2 - termW)),
            max 0 ((termW -
              (pokeW + max 2 (gap - (pokeW + gap + innerW + 2 - termW)) + innerW + 2)) / 2))
        else (gap, (termW - (pokeW + gap + innerW + 2)) / 2)
      else
        if gap + pokeW + gap + innerW + 2 > termW then
          (max 2 (gap - (gap + pokeW + gap + innerW + 2 - termW) / 2),
            max 2 (gap - (gap + pokeW + gap + innerW + 2 - termW) / 2))
        else (gap, gap) := by
  have hC := totalCenter_of_small hg hp hi (by omega)
  have hL := totalLeft_of_small hg hp hi (by omega)
  unfold renderLayout
  rw [hC, hL]
  by_cases hc : align = "center"
  · rw [if_pos hc, if_pos hc]
    by_cases ho : pokeW + gap + innerW + 2 > termW
    · rw [if_pos ho, if_pos ho]
      have e1 : isub (pokeW + gap + innerW + 2) termW = pokeW + gap + innerW + 2 - termW :=
        isub_of_small (by omega) (by omega)
      have e2 : isub gap (pokeW + gap + innerW + 2 - termW) =
          gap - (pokeW + gap + innerW + 2 - termW) := isub_of_small (by omega) (by omega)
      rw [e1, e2]
      have hm : (2 : Int) ≤ max 2 (gap - (pokeW + gap + innerW + 2 - termW)) := le_max_left _ _
      have hm2 : max 2 (gap - (pokeW + gap + innerW + 2 - termW)) ≤ max 2 gap :=
        max_le_max le_rfl (by omega)
      have hm3 : max 2 gap ≤ gap + 2 := max_le (by omega) (by omega)
      have hm4 := hm2.trans hm3
      clear hC hL e1 e2 hm2 hm3
      generalize max 2 (gap - (pokeW + gap + innerW + 2 - termW)) = m at hm hm4 ⊢
      rw [totalCenter_of_small (by omega) hp hi (by omega)]
      have e3 : isub termW (pokeW + m + innerW + 2) = termW - (pokeW + m + innerW + 2) :=
        isub_of_small (by omega) (by omega)
      rw [e3]
      generalize termW - (pokeW + m + innerW + 2) = x
      by_cases hn : 0 ≤ x
      · rw [tdiv_two_of_nonneg hn]
      · have h1 : Int.tdiv x 2 ≤ 0 := by
          have h3 : Int.tdiv (-x) 2 = (-x) / 2 := tdiv_two_of_nonneg (by omega)
          have h4 : Int.tdiv (-x) 2 = -Int.tdiv x 2 := Int.neg_tdiv x 2
          omega
        have h2 : x / 2 ≤ 0 := by omega
        rw [max_eq_left h1, max_eq_left h2]
    · rw [if_neg ho, if_neg ho]
      have e1 : isub termW (pokeW + gap + innerW + 2) = termW - (pokeW + gap + innerW + 2) :=
        isub_of_small (by omega) (by omega)
      rw [e1, tdiv_two_of_nonneg (by omega),
        max_eq_right (Int.ediv_nonneg (by omega) (by norm_num))]
  · rw [if_neg hc, if_neg hc]
    by_cases ho : gap + pokeW + gap + innerW + 2 > termW
    · rw [if_pos ho, if_pos ho]
      have e1 : isub (gap + pokeW + gap + innerW + 2) termW =
          gap + pokeW + gap + innerW + 2 - termW := isub_of_small (by omega) (by omega)
      rw [e1, tdiv_two_of_nonneg (by omega)]
      have e2 : isub gap ((gap + pokeW + gap + innerW + 2 - termW) / 2) =
          gap - (gap + pokeW + gap + innerW + 2 - termW) / 2 :=
        isub_of_small (by omega) (by omega)
      rw [e2]
    · rw [if_neg ho, if_neg ho]

/-- The 64 bit sums of `render` wrap: in left alignment with a configured gap of `2 ^ 62` the
sum `gap + pokeW + gap + innerW + 2` is negative, the guard `totalW > termW` is false and the
gap stays at `2 ^ 62` although the frame does not fit. -/
theorem renderGap_wraps :
    totalLeft (2 ^ 62) 40 40 < 0 ∧ renderGap "left" (2 ^ 62) 40 40 80 = 2 ^ 62 := by
  decide

/-- C3 (amended): for widths that are not negative and whose sum `gap + pokeW + gap + innerW + 4`
fits a 64 bit `int`, whenever `pokeW + gap + innerW + 2 > termW`, in either alignment the
effective gap of `render` is at least 2; it is strictly smaller than the configured gap when
that is more than 2, and it is exactly 2 when the configured gap is 0, 1 or 2. -/
theorem renderGap_overflow (align : String) (gap pokeW innerW termW : Int) (hgap : 0 ≤ gap)
    (hp : 0 ≤ pokeW) (hi : 0 ≤ innerW) (ht : 0 ≤ termW) (ht2 : termW < 2 ^ 63)
    (hsmall : gap + pokeW + gap + innerW + 4 < 2 ^ 63)
    (hover : pokeW + gap + innerW + 2 > termW) :
    2 ≤ renderGap align gap pokeW innerW termW ∧
      (2 < gap → renderGap align gap pokeW innerW termW < gap) ∧
      (gap ≤ 2 → renderGap align gap pokeW innerW termW = 2) := by
  unfold renderGap
  rw [renderLayout_of_small align hgap hp hi ht ht2 hsmall]
  by_cases hc : align = "center"
  · rw [if_pos hc, if_pos hover]
    simp only []
    omega
  · rw [if_neg hc, if_pos (by omega)]
    simp only []
    omega

/-- Witness of C3: a configured gap of 8 in a terminal 10 columns too narrow. -/
theorem renderGap_overflow_witness :
    2 ≤ renderGap "center" 8 40 40 80 ∧
      (2 < (8 : Int) → renderGap "center" 8 40 40 80 < 8) ∧
      ((8 : Int) ≤ 2 → renderGap "center" 8 40 40 80 = 2) :=
  renderGap_overflow "center" 8 40 40 80 (by decide) (by decide) (by decide) (by decide)
    (by decide) (by decide) (by decide)

/-- Counterexample to C3 as stated: with a configured gap of 1 the effective gap is 2, larger
than the configured one. -/
theorem renderGap_not_reduced :
    (40 : Int) + 1 + 40 + 2 > 80 ∧ renderGap "center" 1 40 40 80 = 2 ∧
      ¬ (renderGap "center" 1 40 40 80 < 1) := by
  decide

/-- C5: in centred alignment, for a gap and widths that are not negative and a terminal width
that is a 64 bit `int`, when `total = pokeW + gap + innerW + 2 ≤ termW`, `render` leaves the
gap unchanged and pads on the left by `(termW - total) / 2`. -/
theorem renderLayout_center_fits (gap pokeW innerW termW : Int) (hgap : 0 ≤ gap)
    (hp : 0 ≤ pokeW) (hi : 0 ≤ innerW) (ht : termW < 2 ^ 63)
    (hfit : pokeW + gap + innerW + 2 ≤ termW) :
    renderGap "center" gap pokeW innerW termW = gap ∧
      renderLPad "center" gap pokeW innerW termW = (termW - (pokeW + gap + innerW + 2)) / 2 := by
  have e1 : isub termW (pokeW + gap + innerW + 2) = termW - (pokeW + gap + innerW + 2) :=
    isub_of_small (by omega) (by omega)
  unfold renderGap renderLPad renderLayout
  rw [totalCenter_of_small hgap hp hi (by omega), if_pos rfl, if_neg (by omega)]
  simp only []
  rw [e1, tdiv_two_of_nonneg (by omega)]
  exact ⟨trivial, max_eq_right (Int.ediv_nonneg (by omega) (by norm_num))⟩

/-- Witness of C5: terminal width 80, art width 20, gap 8, panel width 37 give the gap 8 and
the left padding 7. -/
theorem renderLayout_center_fits_witness :
    renderGap "center" 8 20 35 80 = 8 ∧
      renderLPad "center" 8 20 35 80 = (80 - (20 + 8 + 35 + 2)) / 2 :=
  renderLayout_center_fits 8 20 35 80 (by decide) (by decide) (by decide) (by decide)
    (by decide)

/-! ## Text metrics -/

theorem isParam_of_isFinal {c : Char} (h : isFinal c = true) : isParam c = false := by
  unfold isFinal at h
  unfold isParam
  have h1 : c ≠ ';' := by rintro rfl; simp at h
  have h2 : c ≠ '?' := by rintro rfl; simp at h
  simp only [Bool.or_eq_true, decide_eq_true_eq] at h
  simp only [Bool.or_eq_false_iff, decide_eq_false_iff_not, beq_eq_false_iff_ne, ne_eq]
  exact ⟨⟨by omega, h1⟩, h2⟩

theorem matchEscape_cons (c : Char) (cs : Str) :
    matchEscape (c :: cs) = if c = '[' then matchCSI cs else none := rfl

theorem matchCSI_params (ps : Str) (f : Char) (rest : Str) (hps : ∀ p ∈ ps, isParam p = true)
    (hf : isFinal f = true) : matchCSI (ps ++ f :: rest) = some rest := by
  induction ps with
  | nil =>
    show matchCSI (f :: rest) = some rest
    unfold matchCSI
    simp [isParam_of_isFinal hf, hf]
  | cons p ps ih =>
    show matchCSI (p :: (ps ++ f :: rest)) = some rest
    unfold matchCSI
    rw [if_pos (hps p (by simp))]
    exact ih (fun q hq => hps q (by simp [hq]))

theorem matchCSI_length : ∀ (s r : Str), matchCSI s = some r → r.length < s.length := by
  intro s
  induction s with
  | nil => intro r h; simp [matchCSI] at h
  | cons c cs ih =>
    intro r h
    unfold matchCSI at h
    split_ifs at h with h1 h2
    · have := ih r h
      simp only [List.length_cons]
      omega
    · simp only [Option.some.injEq] at h
      subst h
      simp

theorem matchEscape_length (s r : Str) (h : matchEscape s = some r) : r.length < s.length := by
  cases s with
  | nil => simp [matchEscape] at h
  | cons c cs =>
    rw [matchEscape_cons] at h
    split_ifs at h
    have := matchCSI_length cs r h
    simp only [List.length_cons]
    omega

theorem stripAnsiAux_fuel (f : Nat) : ∀ (g : Nat) (s : Str), s.length ≤ f → s.length ≤ g →
    stripAnsiAux f s = stripAnsiAux g s := by
  induction f with
  | zero =>
    intro g s hf _
    have : s = [] := List.length_eq_zero.1 (by omega)
    subst this
    cases g <;> simp [stripAnsiAux]
  | succ f ih =>
    intro g s hf hg
    cases s with
    | nil => cases g <;> simp [stripAnsiAux]
    | cons c cs =>
      cases g with
      | zero => simp at hg
      | succ g =>
        simp only [List.length_cons] at hf hg
        simp only [stripAnsiAux]
        by_cases hc : c = ESC
        · rw [if_pos hc, if_pos hc]
          cases hm : matchEscape cs with
          | none =>
            simp only []
            rw [ih g cs (by omega) (by omega)]
          | some r =>
            simp only []
            have := matchEscape_length cs r hm
            exact ih g r (by omega) (by omega)
        · rw [if_neg hc, if_neg hc, ih g cs (by omega) (by omega)]

theorem stripAnsi_nil : stripAnsi [] = [] := rfl

theorem stripAnsi_cons (c : Char) (cs : Str) :
    stripAnsi (c :: cs) =
      if c = ESC then
        match matchEscape cs with
        | some r => stripAnsi r
        | none => c :: stripAnsi cs
      else c :: stripAnsi cs := by
  unfold stripAnsi
  simp only [List.length_cons, stripAnsiAux]
  by_cases hc : c = ESC
  · rw [if_pos hc, if_pos hc]
    cases hm : matchEscape cs with
    | none => rfl
    | some r =>
      simp only []
      have := matchEscape_length cs r hm
      exact stripAnsiAux_fuel _ _ r (by omega) (le_refl _)
  · rw [if_neg hc, if_neg hc]

theorem stripAnsi_cons_ne {c : Char} (cs : Str) (h : c ≠ ESC) :
    stripAnsi (c :: cs) = c :: stripAnsi cs := by
  rw [stripAnsi_cons, if_neg h]

theorem stripAnsi_escape {e : Str} (rest : Str) (h : IsEscapeSeq e) :
    stripAnsi (e ++ rest) = stripAnsi rest := by
  obtain ⟨ps, f, rfl, hps, hf⟩ := h
  show stripAnsi (ESC :: ('[' :: (ps ++ [f]) ++ rest)) = _
  rw [stripAnsi_cons, if_pos rfl]
  have : matchEscape ('[' :: (ps ++ [f]) ++ rest) = some rest := by
    show matchEscape ('[' :: ((ps ++ [f]) ++ rest)) = some rest
    rw [matchEscape_cons, if_pos rfl, List.append_assoc]
    exact matchCSI_params ps f rest hps hf
  rw [this]

theorem stripAnsi_escapes (es : List Str) (h : ∀ e ∈ es, IsEscapeSeq e) :
    stripAnsi es.flatten = [] := by
  induction es with
  | nil => rfl
  | cons e es ih =>
    rw [List.flatten_cons, stripAnsi_escape _ (h e (by simp))]
    exact ih (fun x hx => h x (by simp [hx]))

/-- C9: the visible length of a line that is a sequence of styling escape sequences is 0, and
the visible length of a line of exactly one character of width 2 is 2. -/
theorem getVisibleLen_escapes_and_wide (rw : Char → Nat) (es : List Str) (c : Char)
    (hes : ∀ e ∈ es, IsEscapeSeq e) (hc : rw c = 2) :
    getVisibleLen rw es.flatten = 0 ∧ getVisibleLen rw [c] = 2 := by
  constructor
  · unfold getVisibleLen
    rw [stripAnsi_escapes es hes]
    rfl
  · unfold getVisibleLen
    by_cases h : c = ESC
    · subst h
      have : stripAnsi [ESC] = [ESC] := by decide
      rw [this]
      simp [stringWidth, hc]
    · rw [stripAnsi_cons_ne _ h, stripAnsi_nil]
      simp [stringWidth, hc]

/-- Witness of C9: a reset and a colour sequence, and one CJK ideograph. -/
theorem getVisibleLen_escapes_and_wide_witness :
    getVisibleLen sampleWidth ["\x1b[0m".toList, "\x1b[1;38;2;1;2;3m".toList].flatten = 0 ∧
      getVisibleLen sampleWidth ['世'] = 2 :=
  getVisibleLen_escapes_and_wide sampleWidth ["\x1b[0m".toList, "\x1b[1;38;2;1;2;3m".toList] '世'
    (by
      intro e he
      simp only [List.mem_cons, List.mem_singleton, List.not_mem_nil, or_false] at he
      rcases he with rfl | rfl
      · exact ⟨"0".toList, 'm', by decide, by decide, by decide⟩
      · exact ⟨"1;38;2;1;2;3".toList, 'm', by decide, by decide, by decide⟩)
    (by decide)

theorem matchCSI_append_some (b : Str) : ∀ (s r : Str), matchCSI s = some r →
    matchCSI (s ++ b) = some (r ++ b) := by
  intro s
  induction s with
  | nil => intro r h; simp [matchCSI] at h
  | cons c cs ih =>
    intro r h
    show matchCSI (c :: (cs ++ b)) = _
    unfold matchCSI at h ⊢
    split_ifs at h ⊢ with h1 h2
    · exact ih r h
    · simp only [Option.some.injEq] at h
      rw [h]

theorem matchCSI_append_none {b : Str} (hb : SafeHead b) : ∀ (s : Str), matchCSI s = none →
    matchCSI (s ++ b) = none := by
  intro s
  induction s with
  | nil =>
    intro _
    cases b with
    | nil => rfl
    | cons c cs =>
      obtain ⟨_, h2, h3⟩ := hb c (by simp)
      show matchCSI (c :: cs) = none
      unfold matchCSI
      simp [h2, h3]
  | cons c cs ih =>
    intro h
    show matchCSI (c :: (cs ++ b)) = _
    unfold matchCSI at h ⊢
    split_ifs at h ⊢ with h1 h2
    · exact ih h
    · rfl

theorem matchEscape_append_some (b s r : Str) (h : matchEscape s = some r) :
    matchEscape (s ++ b) = some (r ++ b) := by
  cases s with
  | nil => simp [matchEscape] at h
  | cons c cs =>
    show matchEscape (c :: (cs ++ b)) = _
    rw [matchEscape_cons] at h ⊢
    split_ifs at h ⊢ with h1
    exact matchCSI_append_some b cs r h

theorem matchEscape_append_none {b : Str} (hb : SafeHead b) (s : Str)
    (h : matchEscape s = none) : matchEscape (s ++ b) = none := by
  cases s with
  | nil =>
    cases b with
    | nil => rfl
    | cons c cs =>
      obtain ⟨h1, _, _⟩ := hb c (by simp)
      show matchEscape (c :: cs) = none
      rw [matchEscape_cons, if_neg h1]
  | cons c cs =>
    show matchEscape (c :: (cs ++ b)) = _
    rw [matchEscape_cons] at h ⊢
    split_ifs at h ⊢ with h1
    · exact matchCSI_append_none hb cs h
    · rfl

theorem stripAnsi_append_aux {b : Str} (hb : SafeHead b) (n : Nat) : ∀ a : Str, a.length ≤ n →
    stripAnsi (a ++ b) = stripAnsi a ++ stripAnsi b := by
  induction n with
  | zero =>
    intro a ha
    have : a = [] := List.length_eq_zero.1 (by omega)
    subst this
    rfl
  | succ n ih =>
    intro a ha
    cases a with
    | nil => rfl
    | cons c cs =>
      simp only [List.length_cons] at ha
      show stripAnsi (c :: (cs ++ b)) = _
      rw [stripAnsi_cons, stripAnsi_cons]
      by_cases hc : c = ESC
      · rw [if_pos hc, if_pos hc]
        cases hm : matchEscape cs with
        | none =>
          rw [matchEscape_append_none hb cs hm]
          simp only []
          rw [ih cs (by omega)]
          rfl
        | some r =>
          rw [matchEscape_append_some b cs r hm]
          simp only []
          have := matchEscape_length cs r hm
          exact ih r (by omega)
      · rw [if_neg hc, if_neg hc, ih cs (by omega)]
        rfl

theorem stripAnsi_append {b : Str} (a : Str) (hb : SafeHead b) :
    stripAnsi (a ++ b) = stripAnsi a ++ stripAnsi b :=
  stripAnsi_append_aux hb a.length a (le_refl _)

theorem stripAnsi_plain (g rest : Str) (h : ESC ∉ g) :
    stripAnsi (g ++ rest) = g ++ stripAnsi rest := by
  induction g with
  | nil => rfl
  | cons c cs ih =>
    have hc : c ≠ ESC := fun e => h (by simp [e])
    show stripAnsi (c :: (cs ++ rest)) = _
    rw [stripAnsi_cons_ne _ hc, ih (fun e => h (by simp [e]))]
    rfl

theorem stripAnsi_plain_self (g : Str) (h : ESC ∉ g) : stripAnsi g = g := by
  have := stripAnsi_plain g [] h
  simpa [stripAnsi_nil] using this

theorem safeHead_cons {c : Char} (cs : Str) (h1 : c ≠ '[') (h2 : isParam c = false)
    (h3 : isFinal c = false) : SafeHead (c :: cs) := by
  intro d hd
  simp only [List.head?_cons, Option.mem_def, Option.some.injEq] at hd
  subst hd
  exact ⟨h1, h2, h3⟩

theorem safeHead_esc (cs : Str) : SafeHead (ESC :: cs) :=
  safeHead_cons cs (by decide) (by decide) (by decide)

theorem safeHead_space (cs : Str) : SafeHead (' ' :: cs) :=
  safeHead_cons cs (by decide) (by decide) (by decide)

theorem safeHead_escape {e : Str} (rest : Str) (h : IsEscapeSeq e) : SafeHead (e ++ rest) := by
  obtain ⟨ps, f, rfl, _, _⟩ := h
  exact safeHead_esc _

theorem isEscapeSeq_reset : IsEscapeSeq reset :=
  ⟨['0'], 'm', by decide, by decide, by decide⟩

theorem isEscapeSeq_sgr {x : Str} (h : IsColorText x) : IsEscapeSeq (sgr x) := by
  refine ⟨"1;38;2;".toList ++ x, 'm', ?_, ?_, by decide⟩
  · unfold sgr
    simp [ESC]
  · intro p hp
    rcases List.mem_append.1 hp with h1 | h1
    · have key : ∀ q ∈ "1;38;2;".toList, isParam q = true := by decide
      exact key p h1
    · exact h p h1

theorem stringWidth_append (rw : Char → Nat) (a b : Str) :
    stringWidth rw (a ++ b) = stringWidth rw a + stringWidth rw b := by
  unfold stringWidth
  simp

theorem stringWidth_spaces (rw : Char → Nat) (h : rw ' ' = 1) (n : Int) :
    stringWidth rw (spaces n) = n.toNat := by
  unfold stringWidth spaces
  simp [h]

theorem esc_not_mem_spaces (n : Int) : ESC ∉ spaces n := by
  unfold spaces
  intro h
  have := List.eq_of_mem_replicate h
  exact absurd this (by decide)

/-! ## Panel geometry -/

theorem stripAnsi_getB {getB : Str → Int → Int → Str} (hB : IsStyled getB) {g : Str}
    (hg : ESC ∉ g) (row col : Int) (rest : Str) :
    stripAnsi (getB g row col ++ rest) = g ++ stripAnsi rest := by
  obtain ⟨e, he, heq⟩ := hB g row col
  rw [heq, List.append_assoc, List.append_assoc, stripAnsi_escape _ he, stripAnsi_plain _ _ hg,
    stripAnsi_escape _ isEscapeSeq_reset]

theorem stripAnsi_getB_last {getB : Str → Int → Int → Str} (hB : IsStyled getB) {g : Str}
    (hg : ESC ∉ g) (row col : Int) : stripAnsi (getB g row col) = g := by
  have := stripAnsi_getB hB hg row col []
  simpa [stripAnsi_nil] using this

theorem stripAnsi_hRun {getB : Str → Int → Int → Str} (hB : IsStyled getB) {g : Str}
    (hg : ESC ∉ g) (row start n : Int) (rest : Str) :
    stripAnsi (hRun getB g row start n ++ rest)
      = (List.replicate n.toNat g).flatten ++ stripAnsi rest := by
  unfold hRun
  generalize n.toNat = k
  induction k generalizing rest with
  | zero => rfl
  | succ k ih =>
    rw [List.range_succ, List.map_append, List.flatten_append, List.append_assoc, ih]
    simp only [List.map_cons, List.map_nil, List.flatten_cons, List.flatten_nil, List.append_nil]
    rw [stripAnsi_getB hB hg, ← List.append_assoc]
    congr 1
    rw [List.replicate_succ']
    simp

theorem stringWidth_replicate_glyph (rw : Char → Nat) {g : Str} (hg : stringWidth rw g = 1)
    (k : Nat) : stringWidth rw (List.replicate k g).flatten = k := by
  induction k with
  | zero => rfl
  | succ k ih =>
    rw [List.replicate_succ, List.flatten_cons, stringWidth_append, hg, ih]
    omega

theorem stripAnsi_boxHeader {rw : Char → Nat} {getB : Str → Int → Int → Str} {style : BoxStyle}
    (hB : IsStyled getB) (hs : StyleWidth1 rw style) (w : Int) :
    stripAnsi (boxHeader rw getB style w)
      = style.TL ++ ((List.replicate (Int.tdiv (w - getVisibleLen rw title) 2).toNat
            style.H).flatten
          ++ (title ++ ((List.replicate (max 0 (w - Int.tdiv (w - getVisibleLen rw title) 2
              - getVisibleLen rw title)).toNat style.H).flatten ++ style.TR))) := by
  obtain ⟨hTL, hTR, _, _, hH, _, _, _⟩ := hs
  unfold boxHeader
  simp only [List.append_assoc]
  rw [stripAnsi_getB hB hTL.1, stripAnsi_hRun hB hH.1,
    stripAnsi_plain title _ (by decide), stripAnsi_hRun hB hH.1, stripAnsi_getB_last hB hTR.1]

theorem stripAnsi_rowLine {rw : Char → Nat} {getB : Str → Int → Int → Str} {style : BoxStyle}
    (hB : IsStyled getB) (hs : StyleWidth1 rw style) {dom ter : Str} (hdom : IsColorText dom)
    (hter : IsColorText ter) (mK rowIdx : Int) (r : Row) (rest : Str) :
    stripAnsi (rowLine rw getB style dom ter mK rowIdx r ++ rest)
      = style.V ++ ([' '] ++ (stripAnsi r.K ++ (spaces (mK - getVisibleLen rw r.K)
          ++ ([' '] ++ (['➜'] ++ ([' '] ++ stripAnsi rest)))))) := by
  obtain ⟨_, _, _, _, _, hV, _, _⟩ := hs
  unfold rowLine
  simp only [List.append_assoc]
  rw [stripAnsi_getB hB hV.1, stripAnsi_plain [' '] _ (by decide),
    stripAnsi_escape _ isEscapeSeq_reset, stripAnsi_escape _ (isEscapeSeq_sgr hter),
    stripAnsi_append r.K (safeHead_escape _ isEscapeSeq_reset),
    stripAnsi_escape _ isEscapeSeq_reset, stripAnsi_plain (spaces _) _ (esc_not_mem_spaces _),
    stripAnsi_plain [' '] _ (by decide), stripAnsi_escape _ (isEscapeSeq_sgr hdom),
    stripAnsi_plain ['➜'] _ (by decide), stripAnsi_escape _ isEscapeSeq_reset,
    stripAnsi_plain [' '] _ (by decide)]

theorem specMax_cons (w : Nat) (ws : List Nat) : specMax (w :: ws) = max w (specMax ws) := rfl

theorem le_specMax {ws : List Nat} {w : Nat} (h : w ∈ ws) : w ≤ specMax ws := by
  induction ws with
  | nil => simp at h
  | cons x xs ih =>
    rw [specMax_cons]
    rcases List.mem_cons.1 h with rfl | h'
    · exact Nat.le_max_left _ _
    · exact le_trans (ih h') (Nat.le_max_right _ _)

theorem maxKV_foldl (rw : Char → Nat) (rows : List Row) : ∀ m : Int × Int, 0 ≤ m.1 → 0 ≤ m.2 →
    rows.foldl (fun m r =>
      if r.IsSep then m
      else
        (if (getVisibleLen rw r.K : Int) > m.1 then (getVisibleLen rw r.K : Int) else m.1,
         if (getVisibleLen rw r.V : Int) > m.2 then (getVisibleLen rw r.V : Int) else m.2)) m
    = (max m.1 (specMax ((rows.filter (fun r => !r.IsSep)).map
          (fun r => getVisibleLen rw r.K)) : Nat),
       max m.2 (specMax ((rows.filter (fun r => !r.IsSep)).map
          (fun r => getVisibleLen rw r.V)) : Nat)) := by
  induction rows with
  | nil =>
    intro m h1 h2
    simp only [List.foldl_nil, List.filter_nil, List.map_nil, specMax, List.foldr_nil,
      Nat.cast_zero]
    exact Prod.ext (max_eq_left h1).symm (max_eq_left h2).symm
  | cons r rs ih =>
    intro m h1 h2
    rw [List.foldl_cons]
    by_cases hsep : r.IsSep = true
    · rw [if_pos hsep, ih m h1 h2]
      simp [hsep]
    · have hsep' : r.IsSep = false := by simpa using hsep
      rw [if_neg hsep, ih _ (by simp only []; split_ifs <;> omega)
        (by simp only []; split_ifs <;> omega)]
      simp only [hsep', Bool.not_false, List.filter_cons_of_pos, List.map_cons, specMax_cons,
        Nat.cast_max]
      refine Prod.ext ?_ ?_
      · simp only []
        split_ifs <;> omega
      · simp only []
        split_ifs <;> omega

theorem maxK_eq (rw : Char → Nat) (rows : List Row) :
    maxK rw rows = (specMax ((rows.filter (fun r => !r.IsSep)).map
      (fun r => getVisibleLen rw r.K)) : Nat) := by
  unfold maxK maxKV
  rw [maxKV_foldl rw rows (0, 0) (le_refl _) (le_refl _)]
  simp

theorem maxV_eq (rw : Char → Nat) (rows : List Row) :
    maxV rw rows = (specMax ((rows.filter (fun r => !r.IsSep)).map
      (fun r => getVisibleLen rw r.V)) : Nat) := by
  unfold maxV maxKV
  rw [maxKV_foldl rw rows (0, 0) (le_refl _) (le_refl _)]
  simp

theorem width_le_maxK (rw : Char → Nat) {rows : List Row} {r : Row} (hr : r ∈ rows)
    (hsep : r.IsSep = false) : (getVisibleLen rw r.K : Int) ≤ maxK rw rows := by
  rw [maxK_eq]
  have : getVisibleLen rw r.K ∈ (rows.filter (fun r => !r.IsSep)).map
      (fun r => getVisibleLen rw r.K) :=
    List.mem_map.2 ⟨r, List.mem_filter.2 ⟨hr, by simp [hsep]⟩, rfl⟩
  exact_mod_cast le_specMax this

theorem width_le_maxV (rw : Char → Nat) {rows : List Row} {r : Row} (hr : r ∈ rows)
    (hsep : r.IsSep = false) : (getVisibleLen rw r.V : Int) ≤ maxV rw rows := by
  rw [maxV_eq]
  have : getVisibleLen rw r.V ∈ (rows.filter (fun r => !r.IsSep)).map
      (fun r => getVisibleLen rw r.V) :=
    List.mem_map.2 ⟨r, List.mem_filter.2 ⟨hr, by simp [hsep]⟩, rfl⟩
  exact_mod_cast le_specMax this

theorem innerW_nonneg (rw : Char → Nat) (rows : List Row) : 5 ≤ innerW rw rows := by
  unfold innerW
  rw [maxK_eq, maxV_eq]
  omega

theorem getVisibleLen_title (rw : Char → Nat) : getVisibleLen rw title = stringWidth rw title := by
  unfold getVisibleLen
  rw [stripAnsi_plain_self title (by decide)]

theorem getVisibleLen_boxHeader {rw : Char → Nat} {getB : Str → Int → Int → Str}
    {style : BoxStyle} (hB : IsStyled getB) (hs : StyleWidth1 rw style) {w : Int}
    (hw : (getVisibleLen rw title : Int) ≤ w) :
    (getVisibleLen rw (boxHeader rw getB style w) : Int) = w + 2 := by
  have hst := @stripAnsi_boxHeader rw _ _ hB hs w
  obtain ⟨hTL, hTR, _, _, hH, _, _, _⟩ := hs
  rw [getVisibleLen_title] at hw hst
  unfold getVisibleLen
  rw [hst]
  simp only [stringWidth_append, stringWidth_replicate_glyph rw hH.2, hTL.2, hTR.2]
  set t := stringWidth rw title
  have h1 : Int.tdiv (w - (t : Int)) 2 = (w - t) / 2 := tdiv_two_of_nonneg (by omega)
  rw [h1]
  push_cast
  have h2 : 0 ≤ (w - (t : Int)) / 2 := Int.ediv_nonneg (by omega) (by norm_num)
  rw [Int.toNat_of_nonneg h2, Int.toNat_of_nonneg (le_max_left _ _)]
  rw [max_eq_right (by omega)]
  omega

theorem textWidth_sampleWidth : TextWidth sampleWidth := by
  constructor
  · intro c h1 h2
    unfold sampleWidth
    rw [if_neg (by omega), if_neg (by omega)]
  · intro c
    unfold sampleWidth
    split_ifs <;> omega

theorem stringWidth_le_two_mul {rw : Char → Nat} (h : ∀ c : Char, rw c ≤ 2) (s : Str) :
    stringWidth rw s ≤ 2 * s.length := by
  unfold stringWidth
  induction s with
  | nil => simp
  | cons c cs ih =>
    have := h c
    simp only [List.map_cons, List.sum_cons, List.length_cons]
    omega

theorem le_stringWidth_of_ascii {rw : Char → Nat}
    (h : ∀ c : Char, 32 ≤ c.toNat → c.toNat < 127 → rw c = 1) (s : Str)
    (hs : ∀ c ∈ s, 32 ≤ c.toNat ∧ c.toNat < 127) : stringWidth rw s = s.length := by
  unfold stringWidth
  induction s with
  | nil => simp
  | cons c cs ih =>
    have h1 := h c (hs c (by simp)).1 (hs c (by simp)).2
    have h2 := ih (fun d hd => hs d (by simp [hd]))
    simp only [List.map_cons, List.sum_cons, List.length_cons]
    omega

/-- The key of the row of the trainer is at least 8 columns wide. -/
theorem le_getVisibleLen_trainerKey {rw : Char → Nat} (hw : TextWidth rw) (trainer : Str) :
    8 ≤ getVisibleLen rw (trainerRow trainer).K := by
  have e : (trainerRow trainer).K = [Char.ofNat 0xF0994] ++ " Trainer".toList := rfl
  unfold getVisibleLen
  rw [e, stripAnsi_plain_self _ (by decide), stringWidth_append,
    le_stringWidth_of_ascii hw.1 " Trainer".toList (by decide)]
  have : " Trainer".toList.length = 8 := by decide
  omega

/-- The value of the row of the trainer is at least 8 columns wide. -/
theorem le_getVisibleLen_trainerValue {rw : Char → Nat} (hw : TextWidth rw) (trainer : Str) :
    8 ≤ getVisibleLen rw (trainerRow trainer).V := by
  have e : (trainerRow trainer).V = trainer ++ "@cachyos".toList := rfl
  have hsafe : SafeHead "@cachyos".toList :=
    safeHead_cons "cachyos".toList (by decide) (by decide) (by decide)
  unfold getVisibleLen
  rw [e, stripAnsi_append trainer hsafe, stringWidth_append,
    stripAnsi_plain_self "@cachyos".toList (by decide),
    le_stringWidth_of_ascii hw.1 "@cachyos".toList (by decide)]
  have : "@cachyos".toList.length = 8 := by decide
  omega

/-- The title fits every panel whose rows start with the row of the trainer: the inner width is
at least 21 and the title at most 18 columns wide. -/
theorem title_le_innerW {rw : Char → Nat} (hw : TextWidth rw) {rows : List Row} {trainer : Str}
    (hrows : rows.head? = some (trainerRow trainer)) :
    (getVisibleLen rw title : Int) ≤ innerW rw rows := by
  have hmem : trainerRow trainer ∈ rows := List.mem_of_mem_head? hrows
  have hK := width_le_maxK rw hmem rfl
  have hV := width_le_maxV rw hmem rfl
  have h1 := le_getVisibleLen_trainerKey hw trainer
  have h2 := le_getVisibleLen_trainerValue hw trainer
  have h3 : stringWidth rw title ≤ 2 * title.length := stringWidth_le_two_mul hw.2 title
  have h4 : title.length = 9 := by decide
  rw [getVisibleLen_title]
  unfold innerW
  omega

theorem isStyled_getBPlain {dom : Str} (h : IsColorText dom) : IsStyled (getBPlain dom) :=
  fun _ _ _ => ⟨sgr dom, isEscapeSeq_sgr h, rfl⟩

theorem stringWidth_singleton (rw : Char → Nat) (c : Char) : stringWidth rw [c] = rw c := by
  simp [stringWidth]

theorem safeHead_spaces_getB {getB : Str → Int → Int → Str} (hB : IsStyled getB) (n : Int)
    (g : Str) (row col : Int) : SafeHead (spaces n ++ getB g row col) := by
  obtain ⟨e, he, heq⟩ := hB g row col
  unfold spaces
  cases n.toNat with
  | zero =>
    rw [List.replicate_zero, List.nil_append, heq, List.append_assoc]
    exact safeHead_escape _ he
  | succ k => exact safeHead_space _

theorem getVisibleLen_rowLine_raw {rw : Char → Nat} {getB : Str → Int → Int → Str}
    {style : BoxStyle} (hsp : rw ' ' = 1) (harrow : rw '➜' = 1) (hB : IsStyled getB)
    (hs : StyleWidth1 rw style) {dom ter : Str} (hdom : IsColorText dom) (hter : IsColorText ter)
    (mK rowIdx : Int) (r : Row) (hK : (getVisibleLen rw r.K : Int) ≤ mK) :
    (getVisibleLen rw (rowLine rw getB style dom ter mK rowIdx r ++ r.V) : Int)
      = mK + 5 + getVisibleLen rw r.V := by
  have hV := hs.2.2.2.2.2.1
  have e : getVisibleLen rw (rowLine rw getB style dom ter mK rowIdx r ++ r.V)
      = stringWidth rw (stripAnsi (rowLine rw getB style dom ter mK rowIdx r ++ r.V)) := rfl
  rw [e, stripAnsi_rowLine hB hs hdom hter]
  simp only [stringWidth_append, hV.2, stringWidth_spaces rw hsp, stringWidth_singleton, hsp,
    harrow]
  have eK : stringWidth rw (stripAnsi r.K) = getVisibleLen rw r.K := rfl
  have eV : stringWidth rw (stripAnsi r.V) = getVisibleLen rw r.V := rfl
  rw [eK, eV]
  push_cast
  rw [Int.toNat_of_nonneg (by omega)]
  omega

theorem boxRow_shape {rw : Char → Nat} {getB : Str → Int → Int → Str} {style : BoxStyle}
    (hsp : rw ' ' = 1) (harrow : rw '➜' = 1) (hB : IsStyled getB) (hs : StyleWidth1 rw style)
    {dom sec ter : Str} (hdom : IsColorText dom) (hsec : IsColorText sec)
    (hter : IsColorText ter) {mK mV w : Int} (hw : w = mK + 3 + mV + 2) (hw0 : 0 ≤ w)
    (rowIdx : Int) (r : Row)
    (hK : r.IsSep = false → (getVisibleLen rw r.K : Int) ≤ mK)
    (hV : r.IsSep = false → (getVisibleLen rw r.V : Int) ≤ mV) :
    ∃ body g, stripAnsi (boxRow rw getB style dom sec ter mK mV w rowIdx r) = body ++ g ∧
      (stringWidth rw body : Int) = w + 1 ∧ (g = style.V ∨ g = style.RT ∨ g = style.BR) := by
  have hgV := hs.2.2.2.2.2.1
  have hgH := hs.2.2.2.2.1
  have hgLT := hs.2.2.2.2.2.2.1
  have hgRT := hs.2.2.2.2.2.2.2
  unfold boxRow
  by_cases hsep : r.IsSep = true
  · rw [if_pos hsep]
    refine ⟨style.LT ++ (List.replicate w.toNat style.H).flatten, style.RT, ?_, ?_, Or.inr (Or.inl rfl)⟩
    · simp only [List.append_assoc]
      rw [stripAnsi_getB hB hgLT.1, stripAnsi_hRun hB hgH.1, stripAnsi_getB_last hB hgRT.1]
    · rw [stringWidth_append, stringWidth_replicate_glyph rw hgH.2, hgLT.2]
      push_cast
      rw [Int.toNat_of_nonneg hw0]
      omega
  · have hsep' : r.IsSep = false := by simpa using hsep
    have hK' := hK hsep'
    have hV' := hV hsep'
    rw [if_neg hsep]
    by_cases hraw : r.IsRaw = true
    · rw [if_pos hraw]
      have hcur := getVisibleLen_rowLine_raw hsp harrow hB hs hdom hter mK rowIdx r hK'
      set n := max 0 (w - (getVisibleLen rw (rowLine rw getB style dom ter mK rowIdx r ++ r.V) : Int)
        + 1) with hn
      have hn' : n = mV - getVisibleLen rw r.V + 1 := by
        rw [hn, hcur, max_eq_right (by omega)]
        omega
      refine ⟨stripAnsi (rowLine rw getB style dom ter mK rowIdx r ++ r.V) ++ spaces n, style.V,
        ?_, ?_, Or.inl rfl⟩
      · rw [List.append_assoc (rowLine rw getB style dom ter mK rowIdx r ++ r.V),
          stripAnsi_append _ (safeHead_spaces_getB hB n style.V rowIdx (w + 1)),
          stripAnsi_plain _ _ (esc_not_mem_spaces n), stripAnsi_getB_last hB hgV.1,
          List.append_assoc]
      · rw [stringWidth_append, stringWidth_spaces rw hsp]
        have : (stringWidth rw (stripAnsi (rowLine rw getB style dom ter mK rowIdx r ++ r.V)) : Int)
            = mK + 5 + getVisibleLen rw r.V := hcur
        push_cast
        rw [this, Int.toNat_of_nonneg (by omega)]
        omega
    · rw [if_neg hraw]
      refine ⟨style.V ++ [' '] ++ stripAnsi r.K ++ spaces (mK - getVisibleLen rw r.K)
          ++ [' '] ++ ['➜'] ++ [' '] ++ stripAnsi r.V
          ++ spaces (mV - getVisibleLen rw r.V) ++ [' '], style.V, ?_, ?_, Or.inl rfl⟩
      · simp only [List.append_assoc]
        rw [stripAnsi_rowLine hB hs hdom hter, stripAnsi_escape _ (isEscapeSeq_sgr hsec),
          stripAnsi_append r.V (safeHead_escape _ isEscapeSeq_reset),
          stripAnsi_escape _ isEscapeSeq_reset, stripAnsi_plain (spaces _) _ (esc_not_mem_spaces _),
          stripAnsi_plain [' '] _ (by decide), stripAnsi_getB_last hB hgV.1]
      · simp only [stringWidth_append, hgV.2, stringWidth_spaces rw hsp, stringWidth_singleton,
          hsp, harrow]
        have eK : stringWidth rw (stripAnsi r.K) = getVisibleLen rw r.K := rfl
        have eV : stringWidth rw (stripAnsi r.V) = getVisibleLen rw r.V := rfl
        rw [eK, eV]
        push_cast
        rw [Int.toNat_of_nonneg (by omega), Int.toNat_of_nonneg (by omega)]
        omega

theorem boxFooter_shape {rw : Char → Nat} {getB : Str → Int → Int → Str} {style : BoxStyle}
    (hB : IsStyled getB) (hs : StyleWidth1 rw style) {w : Int} (hw0 : 0 ≤ w) (rowIdx : Int) :
    ∃ body g, stripAnsi (boxFooter getB style w rowIdx) = body ++ g ∧
      (stringWidth rw body : Int) = w + 1 ∧ (g = style.V ∨ g = style.RT ∨ g = style.BR) := by
  have hgH := hs.2.2.2.2.1
  have hgBL := hs.2.2.1
  have hgBR := hs.2.2.2.1
  unfold boxFooter
  refine ⟨style.BL ++ (List.replicate w.toNat style.H).flatten, style.BR, ?_, ?_, Or.inr (Or.inr rfl)⟩
  · simp only [List.append_assoc]
    rw [stripAnsi_getB hB hgBL.1, stripAnsi_hRun hB hgH.1, stripAnsi_getB_last hB hgBR.1]
  · rw [stringWidth_append, stringWidth_replicate_glyph rw hgH.2, hgBL.2]
    push_cast
    rw [Int.toNat_of_nonneg hw0]
    omega

theorem stringWidth_of_shape {rw : Char → Nat} {style : BoxStyle} (hs : StyleWidth1 rw style)
    {l body g : Str} {w : Int} (h1 : stripAnsi l = body ++ g)
    (h2 : (stringWidth rw body : Int) = w + 1) (h3 : g = style.V ∨ g = style.RT ∨ g = style.BR) :
    (getVisibleLen rw l : Int) = w + 2 := by
  have hg : stringWidth rw g = 1 := by
    rcases h3 with rfl | rfl | rfl
    · exact hs.2.2.2.2.2.1.2
    · exact hs.2.2.2.2.2.2.2.2
    · exact hs.2.2.2.1.2
  unfold getVisibleLen
  rw [h1, stringWidth_append, hg]
  push_cast
  omega

/-- C10: for every row list and a glyph set of width-1 glyphs, `buildBox` returns exactly
`len(rows) + 2` lines, and every body line (key/value, preformatted or separator) and the footer
has visible width `innerW + 2`, its last visible glyph being the right border after `innerW + 1`
columns of content. -/
theorem buildBox_rectangle (rw : Char → Nat) (getB : Str → Int → Int → Str) (style : BoxStyle)
    (dom sec ter : Str) (rows : List Row) (hsp : rw ' ' = 1) (harrow : rw '➜' = 1)
    (hB : IsStyled getB) (hs : StyleWidth1 rw style) (hdom : IsColorText dom)
    (hsec : IsColorText sec) (hter : IsColorText ter) :
    (buildBox rw getB style dom sec ter rows).length = rows.length + 2 ∧
      ∀ l ∈ (buildBox rw getB style dom sec ter rows).tail,
        (getVisibleLen rw l : Int) = innerW rw rows + 2 ∧
        ∃ body g, stripAnsi l = body ++ g ∧ (stringWidth rw body : Int) = innerW rw rows + 1 ∧
          (g = style.V ∨ g = style.RT ∨ g = style.BR) := by
  have hw0 : 0 ≤ innerW rw rows := le_trans (by norm_num) (innerW_nonneg rw rows)
  constructor
  · unfold buildBox
    simp
  · intro l hl
    have key : ∃ body g, stripAnsi l = body ++ g ∧
        (stringWidth rw body : Int) = innerW rw rows + 1 ∧
        (g = style.V ∨ g = style.RT ∨ g = style.BR) := by
      unfold buildBox at hl
      simp only [List.cons_append, List.tail_cons, List.mem_append, List.mem_map,
        List.mem_singleton] at hl
      rcases hl with ⟨p, hp, rfl⟩ | rfl
      · have hmem : p.2 ∈ rows := List.snd_mem_of_mem_enum hp
        exact boxRow_shape hsp harrow hB hs hdom hsec hter rfl hw0 _ p.2
          (fun h => width_le_maxK rw hmem h) (fun h => width_le_maxV rw hmem h)
      · exact boxFooter_shape hB hs hw0 _
    obtain ⟨body, g, h1, h2, h3⟩ := key
    exact ⟨stringWidth_of_shape hs h1 h2 h3, body, g, h1, h2, h3⟩

/-- Witness of C10: a key/value row, a preformatted row, a separator and a row with wide
characters in the rounded style. -/
theorem buildBox_rectangle_witness :
    (buildBox sampleWidth (getBPlain "32;252;0".toList) (boxStyles "rounded")
        "32;252;0".toList "0;255;255".toList "255;0;255".toList mixedRows).length
        = mixedRows.length + 2 ∧
      ∀ l ∈ (buildBox sampleWidth (getBPlain "32;252;0".toList) (boxStyles "rounded")
          "32;252;0".toList "0;255;255".toList "255;0;255".toList mixedRows).tail,
        (getVisibleLen sampleWidth l : Int) = innerW sampleWidth mixedRows + 2 ∧
        ∃ body g, stripAnsi l = body ++ g ∧
          (stringWidth sampleWidth body : Int) = innerW sampleWidth mixedRows + 1 ∧
          (g = (boxStyles "rounded").V ∨ g = (boxStyles "rounded").RT ∨
            g = (boxStyles "rounded").BR) :=
  buildBox_rectangle sampleWidth (getBPlain "32;252;0".toList) (boxStyles "rounded")
    "32;252;0".toList "0;255;255".toList "255;0;255".toList mixedRows (by decide) (by decide)
    (isStyled_getBPlain (by decide)) (by decide) (by decide) (by decide) (by decide)

/-! ## Border animation -/

theorem ofInt_nonneg {i : Int} (h : 0 ≤ i) : 0 ≤ ofInt i := by
  unfold ofInt
  exact round_nonneg (by norm_num) (mul_nonneg h (by positivity))

theorem fmin_zero_left {a : Int} (h : 0 ≤ a) : fmin 0 a = 0 := by
  unfold fmin
  rw [if_pos h]

theorem fmin_zero_right {a : Int} (h : 0 ≤ a) : fmin a 0 = 0 := by
  unfold fmin
  split_ifs <;> omega

theorem fsqrt_zero : fsqrt 0 = 0 := by decide

theorem fdiv_zero_left (b : Int) : fdiv 0 b = 0 := by
  unfold fdiv
  split_ifs <;> simp [round_zero]

theorem spatialDelay_of_zero {dx dy : Int} (hx : dx = 0) (hy : dy = 0) :
    fdiv (fsqrt (fadd (fmul dx dx) (fmul dy dy))) (ofInt 300) = 0 := by
  subst hx hy
  rw [fmul_zero_left]
  have : fadd 0 0 = 0 := by unfold fadd; simp [round_zero]
  rw [this, fsqrt_zero, fdiv_zero_left]

theorem spatialDelay_corner {totalW totalH row col : Int} (hW : 1 ≤ totalW) (hH : 1 ≤ totalH)
    (hrow : row = 0 ∨ row = totalH - 1) (hcol : col = 0 ∨ col = totalW - 1) :
    spatialDelay totalW totalH row col = 0 := by
  unfold spatialDelay
  apply spatialDelay_of_zero
  · rcases hcol with rfl | rfl
    · rw [ofInt_zero]
      exact fmin_zero_left (ofInt_nonneg (by omega))
    · rw [sub_self, ofInt_zero]
      exact fmin_zero_right (ofInt_nonneg (by omega))
  · rcases hrow with rfl | rfl
    · rw [ofInt_zero]
      exact fmin_zero_left (ofInt_nonneg (by omega))
    · rw [sub_self, ofInt_zero]
      exact fmin_zero_right (ofInt_nonneg (by omega))

theorem wrapLoop_of_nonneg (fuel : Nat) {o : Int} (h : 0 ≤ o) : wrapLoop fuel o = some o := by
  cases fuel <;> simp [wrapLoop, not_lt.2 h]

theorem baseColor_of_delay_zero (fuel : Nat) (palette : List Str) {phase : Int}
    (hf : IsF64 phase) (h0 : 0 ≤ phase) {totalW totalH row col : Int}
    (hd : spatialDelay totalW totalH row col = 0) :
    baseColor fuel palette phase totalW totalH row col = getInterpolatedRGB palette phase := by
  unfold baseColor wrappedOffset
  rw [hd]
  have : fsub phase 0 = phase := by
    unfold fsub
    rw [sub_zero]
    exact round_of_isF64 hf
  rw [this, wrapLoop_of_nonneg fuel h0]

/-- C6: for every row list (panel of `totalW = innerW + 2` by `totalH = len(rows) + 2` cells),
every palette and every animation phase (a `float64` that is not negative), the four corner
cells have spatial delay exactly 0 and the same base colour before the pulse,
`getInterpolatedRGB(palette, phase)`. -/
theorem corners_share_base_color (rw : Char → Nat) (rows : List Row) (palette : List Str)
    (fuel : Nat) (phase : Int) (hf : IsF64 phase) (h0 : 0 ≤ phase) :
    ∀ cell ∈ [((0 : Int), (0 : Int)), (0, innerW rw rows + 2 - 1),
        ((rows.length : Int) + 2 - 1, 0), ((rows.length : Int) + 2 - 1, innerW rw rows + 2 - 1)],
      spatialDelay (innerW rw rows + 2) ((rows.length : Int) + 2) cell.1 cell.2 = 0 ∧
      baseColor fuel palette phase (innerW rw rows + 2) ((rows.length : Int) + 2) cell.1 cell.2
        = getInterpolatedRGB palette phase := by
  have hW : 1 ≤ innerW rw rows + 2 := by
    have := innerW_nonneg rw rows
    omega
  have hH : 1 ≤ (rows.length : Int) + 2 := by omega
  intro cell hcell
  have hd : spatialDelay (innerW rw rows + 2) ((rows.length : Int) + 2) cell.1 cell.2 = 0 := by
    simp only [List.mem_cons, List.mem_singleton, List.not_mem_nil, or_false] at hcell
    rcases hcell with rfl | rfl | rfl | rfl
    · exact spatialDelay_corner hW hH (Or.inl rfl) (Or.inl rfl)
    · exact spatialDelay_corner hW hH (Or.inl rfl) (Or.inr rfl)
    · exact spatialDelay_corner hW hH (Or.inr rfl) (Or.inl rfl)
    · exact spatialDelay_corner hW hH (Or.inr rfl) (Or.inr rfl)
  exact ⟨hd, baseColor_of_delay_zero fuel palette hf h0 hd⟩

/-- Witness of C6: the panel of the sample rows (37 by 5 cells), a palette of two colours,
phase `0.25`, at the top left and the bottom right corner. -/
theorem corners_share_base_color_witness :
    (spatialDelay (innerW sampleWidth sampleRows + 2) ((sampleRows.length : Int) + 2) 0 0 = 0 ∧
      baseColor 4 ["10;20;30".toList, "110;220;40".toList] (ofRat 1 4)
        (innerW sampleWidth sampleRows + 2) ((sampleRows.length : Int) + 2) 0 0
        = getInterpolatedRGB ["10;20;30".toList, "110;220;40".toList] (ofRat 1 4)) ∧
    (spatialDelay (innerW sampleWidth sampleRows + 2) ((sampleRows.length : Int) + 2)
        ((sampleRows.length : Int) + 2 - 1) (innerW sampleWidth sampleRows + 2 - 1) = 0 ∧
      baseColor 4 ["10;20;30".toList, "110;220;40".toList] (ofRat 1 4)
        (innerW sampleWidth sampleRows + 2) ((sampleRows.length : Int) + 2)
        ((sampleRows.length : Int) + 2 - 1) (innerW sampleWidth sampleRows + 2 - 1)
        = getInterpolatedRGB ["10;20;30".toList, "110;220;40".toList] (ofRat 1 4)) :=
  ⟨corners_share_base_color sampleWidth sampleRows ["10;20;30".toList, "110;220;40".toList] 4
      (ofRat 1 4) (by decide) (by decide) (0, 0) (by simp),
    corners_share_base_color sampleWidth sampleRows ["10;20;30".toList, "110;220;40".toList] 4
      (ofRat 1 4) (by decide) (by decide)
      ((sampleRows.length : Int) + 2 - 1, innerW sampleWidth sampleRows + 2 - 1) (by simp)⟩

/-! ## Animation phase -/

theorem tickStep_bounds : 0 ≤ tickStep ∧ tickStep ≤ U := by decide

theorem tick_bounds {x : Int} (h0 : 0 ≤ x) (h1 : x ≤ U) : 0 ≤ tick x ∧ tick x ≤ U := by
  obtain ⟨c0, c1⟩ := tickStep_bounds
  have hU : (0 : Int) < U := by exact_mod_cast U_pos
  have a0 : 0 ≤ fadd x tickStep := round_nonneg (by norm_num) (by omega)
  have a1 : fadd x tickStep ≤ 2 ^ 1 * U :=
    round_le (by norm_num) (isF64_pow_units 1) (by push_cast; omega)
  unfold tick
  split_ifs with h
  · exact ⟨round_nonneg (by norm_num) (by omega),
      round_le (by norm_num) isF64_U (by push_cast; omega)⟩
  · exact ⟨a0, by omega⟩

theorem phaseAfter_bounds (n : Nat) : 0 ≤ phaseAfter n ∧ phaseAfter n ≤ U := by
  induction n with
  | zero =>
    have hU : (0 : Int) < U := by exact_mod_cast U_pos
    exact ⟨le_refl _, hU.le⟩
  | succ n ih => exact tick_bounds ih.1 ih.2

/-! ## Malformed colour text -/

theorem parseUint_malformed : ∀ (body : Str) (n k : Nat), n < 10 ^ k → body.length + k ≤ 18 →
    (∃ d ∈ body, d.isDigit = false) → parseUint body n = ParseResult.malformed := by
  intro body
  induction body with
  | nil => intro n k _ _ h; simp at h
  | cons c cs ih =>
    intro n k hn hk hd
    rw [parseUint_cons]
    by_cases hc : c.isDigit = true
    · have hk' : k ≤ 17 := by simp only [List.length_cons] at hk; omega
      have h18 : (10 : Nat) ^ (k + 1) ≤ 10 ^ 18 := Nat.pow_le_pow_right (by norm_num) (by omega)
      have hd9 : c.toNat - 48 ≤ 9 := by
        simp only [Char.isDigit, Bool.and_eq_true, decide_eq_true_eq] at hc
        have h2 : c.val ≤ 57 := hc.2
        have : c.toNat ≤ 57 := by
          have := UInt32.le_def.1 h2
          simpa [Char.toNat] using this
        omega
      have hn1 : n * 10 + (c.toNat - 48) < 10 ^ (k + 1) := by
        rw [pow_succ]
        omega
      rw [if_pos hc, if_neg (by omega), if_neg (by omega)]
      apply ih _ (k + 1) hn1 (by simp only [List.length_cons] at hk; omega)
      obtain ⟨d, hdm, hdd⟩ := hd
      rcases List.mem_cons.1 hdm with rfl | h
      · rw [hc] at hdd
        exact absurd hdd (by simp)
      · exact ⟨d, h, hdd⟩
    · rw [if_neg hc]

theorem atoi_of_not_intSyntax {s : Str} (hlen : s.length < 19) (h : ¬ IsIntSyntax s) :
    atoi s = 0 := by
  cases s with
  | nil => rfl
  | cons c cs =>
    unfold IsIntSyntax at h
    simp only [] at h
    unfold atoi
    simp only []
    set body := (if c = '+' ∨ c = '-' then cs else c :: cs) with hbody
    by_cases hb : body = []
    · rw [if_pos hb]
    · rw [if_neg hb]
      have hnd : ∃ d ∈ body, d.isDigit = false := by
        by_contra hcon
        apply h
        refine ⟨hb, fun d hd => ?_⟩
        by_contra hdd
        exact hcon ⟨d, hd, by simpa using hdd⟩
      have hbl : body.length + 0 ≤ 18 := by
        rw [hbody]
        simp only [List.length_cons] at hlen
        split_ifs
        · omega
        · simp only [List.length_cons]
          omega
      rw [parseUint_malformed body 0 0 (by norm_num) hbl hnd]

theorem parse_of_few_fields {s : Str} (h : (stringsSplit ';' s).length < 3) :
    parse s = (255, 255, 255) := by
  unfold parse
  rcases hs : stringsSplit ';' s with _ | ⟨a, _ | ⟨b, _ | ⟨c, t⟩⟩⟩
  · rfl
  · rfl
  · rfl
  · rw [hs] at h
    simp only [List.length_cons] at h
    omega

theorem parse_of_fields {s p0 p1 p2 : Str} {rest : List Str}
    (h : stringsSplit ';' s = p0 :: p1 :: p2 :: rest) : parse s = (atoi p0, atoi p1, atoi p2) := by
  unfold parse
  rw [h]

theorem pokeWidth_foldl (rw : Char → Nat) (ls : List Str) : ∀ w : Int,
    w ≤ ls.foldl (fun w l =>
        if (getVisibleLen rw l : Int) > w then (getVisibleLen rw l : Int) else w) w ∧
      ∀ l ∈ ls, (getVisibleLen rw l : Int) ≤ ls.foldl (fun w l =>
        if (getVisibleLen rw l : Int) > w then (getVisibleLen rw l : Int) else w) w := by
  induction ls with
  | nil => intro w; simp
  | cons x xs ih =>
    intro w
    rw [List.foldl_cons]
    obtain ⟨h1, h2⟩ := ih (if (getVisibleLen rw x : Int) > w then (getVisibleLen rw x : Int) else w)
    constructor
    · refine le_trans ?_ h1
      split_ifs <;> omega
    · intro l hl
      rcases List.mem_cons.1 hl with rfl | hl'
      · refine le_trans ?_ h1
        split_ifs <;> omega
      · exact h2 l hl'

theorem pokeWidth_nonneg (rw : Char → Nat) (ls : List Str) : 0 ≤ pokeWidth rw ls :=
  (pokeWidth_foldl rw ls 0).1

theorem le_pokeWidth (rw : Char → Nat) {ls : List Str} {l : Str} (h : l ∈ ls) :
    (getVisibleLen rw l : Int) ≤ pokeWidth rw ls :=
  (pokeWidth_foldl rw ls 0).2 l h

theorem lineAt_some {xs : List Str} {idx : Int} {l : Str} (h : lineAt xs idx = some l) : l ∈ xs := by
  unfold lineAt at h
  split_ifs at h
  exact List.getElem?_mem h

theorem lineAt_isSome {xs : List Str} {idx : Int} (h0 : 0 ≤ idx) (h1 : idx < xs.length) :
    ∃ l, lineAt xs idx = some l := by
  unfold lineAt
  rw [if_pos ⟨h0, h1⟩]
  exact ⟨_, List.getElem?_eq_getElem (by omega)⟩

theorem lineAt_none {xs : List Str} {idx : Int} (h : lineAt xs idx = none) :
    idx < 0 ∨ (xs.length : Int) ≤ idx := by
  by_contra hc
  obtain ⟨l, hl⟩ := @lineAt_isSome xs idx (by omega) (by omega)
  rw [hl] at h
  exact absurd h (by simp)

theorem safeHead_nil : SafeHead [] := by
  intro c hc
  simp at hc

theorem safeHead_spaces_append {x : Str} (n : Int) (h : SafeHead x) : SafeHead (spaces n ++ x) := by
  unfold spaces
  cases n.toNat with
  | zero => simpa using h
  | succ k => exact safeHead_space _

theorem safeHead_spaces (n : Int) : SafeHead (spaces n) := by
  have := safeHead_spaces_append n safeHead_nil
  simpa using this

theorem getVisibleLen_spaces (rw : Char → Nat) (hsp : rw ' ' = 1) {n : Int} (h : 0 ≤ n) :
    (getVisibleLen rw (spaces n) : Int) = n := by
  unfold getVisibleLen
  rw [stripAnsi_plain_self _ (esc_not_mem_spaces n), stringWidth_spaces rw hsp]
  exact Int.toNat_of_nonneg h

theorem getVisibleLen_spaces_append (rw : Char → Nat) (hsp : rw ' ' = 1) {n : Int} (h : 0 ≤ n)
    (x : Str) : (getVisibleLen rw (spaces n ++ x) : Int) = n + getVisibleLen rw x := by
  unfold getVisibleLen
  rw [stripAnsi_plain _ _ (esc_not_mem_spaces n), stringWidth_append, stringWidth_spaces rw hsp]
  push_cast
  rw [Int.toNat_of_nonneg h]

theorem getVisibleLen_append (rw : Char → Nat) (a : Str) {b : Str} (hb : SafeHead b) :
    getVisibleLen rw (a ++ b) = getVisibleLen rw a + getVisibleLen rw b := by
  unfold getVisibleLen
  rw [stripAnsi_append a hb, stringWidth_append]

theorem getVisibleLen_artCell (rw : Char → Nat) (hsp : rw ' ' = 1) (pokeLines : List Str)
    {pokeW : Int} (hw : ∀ l ∈ pokeLines, (getVisibleLen rw l : Int) ≤ pokeW) (hw0 : 0 ≤ pokeW)
    (pTop i : Int) : (getVisibleLen rw (artCell rw pokeLines pokeW pTop i) : Int) = pokeW := by
  unfold artCell
  cases hl : lineAt pokeLines (i - pTop) with
  | none => exact getVisibleLen_spaces rw hsp hw0
  | some l =>
    simp only []
    have hlw := hw l (lineAt_some hl)
    have hd : Int.tdiv (pokeW - getVisibleLen rw l) 2 = (pokeW - getVisibleLen rw l) / 2 :=
      tdiv_two_of_nonneg (by omega)
    have hd0 : 0 ≤ (pokeW - (getVisibleLen rw l : Int)) / 2 :=
      Int.ediv_nonneg (by omega) (by norm_num)
    rw [hd]
    have hp := getVisibleLen_spaces_append rw hsp hd0 l
    rw [getVisibleLen_append rw _ (safeHead_spaces _)]
    push_cast
    rw [getVisibleLen_spaces rw hsp (by omega)]
    omega

theorem safeHead_getB {getB : Str → Int → Int → Str} (hB : IsStyled getB) (g : Str)
    (row col : Int) (rest : Str) : SafeHead (getB g row col ++ rest) := by
  obtain ⟨e, he, heq⟩ := hB g row col
  rw [heq, List.append_assoc, List.append_assoc]
  exact safeHead_escape _ he

theorem mem_buildBox {rw : Char → Nat} {getB : Str → Int → Int → Str} {style : BoxStyle}
    {dom sec ter : Str} {rows : List Row} {l : Str}
    (h : l ∈ buildBox rw getB style dom sec ter rows) :
    l = boxHeader rw getB style (innerW rw rows) ∨
      (∃ (k : Int) (r : Row), r ∈ rows ∧
        l = boxRow rw getB style dom sec ter (maxK rw rows) (maxV rw rows) (innerW rw rows) k r) ∨
      ∃ k : Int, l = boxFooter getB style (innerW rw rows) k := by
  unfold buildBox at h
  simp only [List.cons_append, List.mem_cons, List.mem_append, List.mem_map,
    List.not_mem_nil, or_false] at h
  rcases h with rfl | ⟨p, hp, rfl⟩ | rfl
  · exact Or.inl rfl
  · exact Or.inr (Or.inl ⟨_, p.2, List.snd_mem_of_mem_enum hp, rfl⟩)
  · exact Or.inr (Or.inr ⟨_, rfl⟩)

theorem safeHead_buildBox_line {rw : Char → Nat} {getB : Str → Int → Int → Str}
    {style : BoxStyle} {dom sec ter : Str} {rows : List Row} (hB : IsStyled getB) {l : Str}
    (h : l ∈ buildBox rw getB style dom sec ter rows) : SafeHead l := by
  rcases mem_buildBox h with rfl | ⟨k, r, _, rfl⟩ | ⟨k, rfl⟩
  · unfold boxHeader
    simp only [List.append_assoc]
    exact safeHead_getB hB _ _ _ _
  · unfold boxRow rowLine
    split_ifs
    · simp only [List.append_assoc]
      exact safeHead_getB hB _ _ _ _
    · simp only [List.append_assoc]
      exact safeHead_getB hB _ _ _ _
    · simp only [List.append_assoc]
      exact safeHead_getB hB _ _ _ _
  · unfold boxFooter
    simp only [List.append_assoc]
    exact safeHead_getB hB _ _ _ _

theorem getVisibleLen_buildBox_line {rw : Char → Nat} {getB : Str → Int → Int → Str}
    {style : BoxStyle} {dom sec ter : Str} {rows : List Row} (hsp : rw ' ' = 1)
    (harrow : rw '➜' = 1) (hB : IsStyled getB) (hs : StyleWidth1 rw style)
    (hdom : IsColorText dom) (hsec : IsColorText sec) (hter : IsColorText ter)
    (htitle : (getVisibleLen rw title : Int) ≤ innerW rw rows) {l : Str}
    (h : l ∈ buildBox rw getB style dom sec ter rows) :
    (getVisibleLen rw l : Int) = innerW rw rows + 2 := by
  have hw0 : 0 ≤ innerW rw rows := le_trans (by norm_num) (innerW_nonneg rw rows)
  rcases mem_buildBox h with rfl | ⟨k, r, hr, rfl⟩ | ⟨k, rfl⟩
  · exact getVisibleLen_boxHeader hB hs htitle
  · obtain ⟨body, g, h1, h2, h3⟩ := boxRow_shape hsp harrow hB hs hdom hsec hter rfl hw0 k r
      (fun hsep => width_le_maxK rw hr hsep) (fun hsep => width_le_maxV rw hr hsep)
    exact stringWidth_of_shape hs h1 h2 h3
  · obtain ⟨body, g, h1, h2, h3⟩ := @boxFooter_shape rw getB style hB hs _ hw0 k
    exact stringWidth_of_shape hs h1 h2 h3

theorem getVisibleLen_lineOut (rw : Char → Nat) (hsp : rw ' ' = 1) (pokeLines boxLines : List Str)
    {pokeW lPad gap : Int} (hw : ∀ l ∈ pokeLines, (getVisibleLen rw l : Int) ≤ pokeW)
    (hw0 : 0 ≤ pokeW) (hl : 0 ≤ lPad) (hg : 0 ≤ gap) (hbox : ∀ b ∈ boxLines, SafeHead b)
    (i : Int) :
    (getVisibleLen rw (lineOut rw pokeLines boxLines pokeW lPad gap i) : Int)
      = lPad + pokeW + gap
        + getVisibleLen rw
            (panelCell boxLines (topPad (frameHeight pokeLines boxLines) boxLines) i) := by
  have hpanel : SafeHead (panelCell boxLines (topPad (frameHeight pokeLines boxLines) boxLines) i) := by
    unfold panelCell
    cases hb : lineAt boxLines (i - topPad (frameHeight pokeLines boxLines) boxLines) with
    | none => exact safeHead_nil
    | some b => exact hbox b (lineAt_some hb)
  unfold lineOut
  rw [List.append_assoc, List.append_assoc, getVisibleLen_spaces_append rw hsp hl,
    getVisibleLen_append rw _ (safeHead_spaces_append gap hpanel)]
  push_cast
  rw [getVisibleLen_artCell rw hsp pokeLines hw hw0, getVisibleLen_spaces_append rw hsp hg]
  omega

theorem panelCell_cases (pokeLines boxLines : List Str) {i : Nat}
    (hi : (i : Int) < frameHeight pokeLines boxLines) :
    (panelCell boxLines (topPad (frameHeight pokeLines boxLines) boxLines) i ∈ boxLines) ∨
      (panelCell boxLines (topPad (frameHeight pokeLines boxLines) boxLines) i = [] ∧
        boxLines.length < pokeLines.length) := by
  unfold panelCell
  cases hb : lineAt boxLines ((i : Int) - topPad (frameHeight pokeLines boxLines) boxLines) with
  | some b => exact Or.inl (lineAt_some hb)
  | none =>
    refine Or.inr ⟨rfl, ?_⟩
    by_contra hc
    have hmax : frameHeight pokeLines boxLines = (boxLines.length : Int) := by
      unfold frameHeight
      exact max_eq_right (by omega)
    have htop : topPad (frameHeight pokeLines boxLines) boxLines = 0 := by
      unfold topPad
      rw [hmax, sub_self]
      rfl
    rw [htop] at hb
    rw [hmax] at hi
    rcases lineAt_none hb with h | h <;> omega

theorem renderLines_length (rw : Char → Nat) (pokeLines boxLines : List Str)
    (pokeW lPad gap : Int) :
    (renderLines rw pokeLines boxLines pokeW lPad gap).length
      = max pokeLines.length boxLines.length := by
  unfold renderLines frameHeight
  rw [List.length_map, List.length_range]
  omega

theorem renderLines_getElem? (rw : Char → Nat) (pokeLines boxLines : List Str)
    (pokeW lPad gap : Int) {i : Nat} (hi : i < max pokeLines.length boxLines.length) :
    (renderLines rw pokeLines boxLines pokeW lPad gap)[i]?
      = some (lineOut rw pokeLines boxLines pokeW lPad gap (i : Int)) := by
  have hlen : i < (frameHeight pokeLines boxLines).toNat := by
    unfold frameHeight
    omega
  unfold renderLines
  rw [List.getElem?_map, List.getElem?_range hlen]
  rfl

theorem topPad_eq (pokeLines boxLines : List Str) :
    topPad (frameHeight pokeLines boxLines) boxLines
      = (((max pokeLines.length boxLines.length - boxLines.length) / 2 : Nat) : Int) := by
  unfold topPad frameHeight
  rw [tdiv_two_of_nonneg (by omega)]
  omega

theorem panelCell_inside (boxLines : List Str) {bTop i : Nat} (h1 : bTop ≤ i)
    (h2 : i < bTop + boxLines.length) :
    boxLines[i - bTop]? = some (panelCell boxLines (bTop : Int) (i : Int)) := by
  have e : ((i : Int) - (bTop : Int)).toNat = i - bTop := by omega
  unfold panelCell lineAt
  rw [if_pos ⟨by omega, by omega⟩, e]
  obtain ⟨b, hb⟩ : ∃ b, boxLines[i - bTop]? = some b :=
    ⟨_, List.getElem?_eq_getElem (by omega)⟩
  rw [hb]

theorem panelCell_outside (boxLines : List Str) {bTop i : Nat}
    (h : ¬ (bTop ≤ i ∧ i < bTop + boxLines.length)) :
    panelCell boxLines (bTop : Int) (i : Int) = [] := by
  unfold panelCell lineAt
  rw [if_neg (by omega)]

theorem renderLayout_nonneg (align : String) {cfgGap pokeW innerW termW : Int}
    (h : 0 ≤ cfgGap) (hp : 0 ≤ pokeW) (hi : 0 ≤ innerW) (ht : 0 ≤ termW) (ht2 : termW < 2 ^ 63)
    (hsmall : cfgGap + pokeW + cfgGap + innerW + 4 < 2 ^ 63) :
    0 ≤ renderGap align cfgGap pokeW innerW termW ∧
      0 ≤ renderLPad align cfgGap pokeW innerW termW := by
  unfold renderGap renderLPad
  rw [renderLayout_of_small align h hp hi ht ht2 hsmall]
  split_ifs <;> simp only [] <;> constructor <;>
    first
      | exact le_max_left _ _
      | exact le_trans (by norm_num) (le_max_left _ _)
      | exact h
      | exact Int.ediv_nonneg (by omega) (by norm_num)

namespace F64

theorem isqrtAux_spec (k : Nat) : ∀ (n r : Nat), r * r ≤ n → n < (r + 2 ^ k) * (r + 2 ^ k) →
    isqrtAux k n r * isqrtAux k n r ≤ n ∧ n < (isqrtAux k n r + 1) * (isqrtAux k n r + 1) := by
  induction k with
  | zero =>
    intro n r h1 h2
    simpa [isqrtAux] using And.intro h1 h2
  | succ k ih =>
    intro n r h1 h2
    unfold isqrtAux
    split_ifs with hc
    · apply ih _ _ hc
      have e : r + 2 ^ k + 2 ^ k = r + 2 ^ (k + 1) := by rw [pow_succ]; omega
      rw [e]
      exact h2
    · exact ih _ _ h1 (by omega)

theorem isqrt_spec (n : Nat) : isqrt n * isqrt n ≤ n ∧ n < (isqrt n + 1) * (isqrt n + 1) := by
  unfold isqrt
  apply isqrtAux_spec _ _ _ (by simp)
  have h : n < 2 ^ (ilog2 n + 1) := lt_pow_ilog2 n
  have h2 : 2 ^ (ilog2 n + 1) ≤ 2 ^ (ilog2 n / 2 + 1) * 2 ^ (ilog2 n / 2 + 1) := by
    rw [← pow_add]
    exact Nat.pow_le_pow_right (by norm_num) (by omega)
  simpa using lt_of_lt_of_le h h2

theorem isqrt_le_of_le_sq {n r : Nat} (h : n ≤ r * r) : isqrt n ≤ r := by
  by_contra hc
  have h1 : r + 1 ≤ isqrt n := by omega
  have h2 := (isqrt_spec n).1
  have h3 : (r + 1) * (r + 1) ≤ isqrt n * isqrt n := Nat.mul_le_mul h1 h1
  nlinarith

theorem sqrtNat_le {a r : Nat} (hr : IsRep r) (h : a * U ≤ r * r) : sqrtNat a ≤ r := by
  unfold sqrtNat
  simp only []
  set n := a * U with hn
  set t := gridExp (isqrt n) with ht
  set f := isqrt (n / 4 ^ t) with hf
  have hsr : isqrt n ≤ r := isqrt_le_of_le_sq h
  have hG : 2 ^ t ∣ r := dvd_trans (Nat.pow_dvd_pow 2 (gridExp_mono hsr)) hr
  obtain ⟨q, hq⟩ := hG
  have h4 : (4 : Nat) ^ t = 2 ^ t * 2 ^ t := by
    rw [← pow_two, ← pow_mul, mul_comm, pow_mul]
    norm_num
  have hGpos : 0 < 2 ^ t := by positivity
  have hfq : f ≤ q := by
    apply isqrt_le_of_le_sq
    rw [h4]
    apply Nat.div_le_of_le_mul
    calc n ≤ r * r := h
      _ = 2 ^ t * 2 ^ t * (q * q) := by rw [hq]; ring
  rcases Nat.lt_or_ge f q with hlt | hge
  · have hR : (f + 1) * 2 ^ t ≤ r := by
      rw [hq, mul_comm]
      exact Nat.mul_le_mul_left _ (by omega)
    split_ifs
    · exact le_trans (Nat.mul_le_mul_right _ (by omega)) hR
    · exact hR
  · have hfq' : f = q := le_antisymm hfq hge
    have hcond : 4 * n < 4 ^ t * (4 * (f * f + f) + 1) := by
      have : n ≤ 4 ^ t * (f * f) := by
        calc n ≤ r * r := h
          _ = 4 ^ t * (f * f) := by rw [hq, h4, hfq']; ring
      have h4pos : 0 < 4 ^ t := by positivity
      nlinarith
    rw [if_pos hcond, hq, hfq', mul_comm]

theorem le_isqrt_of_sq_le {n m : Nat} (h : m * m ≤ n) : m ≤ isqrt n := by
  by_contra hc
  have h1 : isqrt n + 1 ≤ m := by omega
  have h2 := (isqrt_spec n).2
  have h3 : (isqrt n + 1) * (isqrt n + 1) ≤ m * m := Nat.mul_le_mul h1 h1
  omega

theorem sqrtNat_ge {a r : Nat} (hr : IsRep r) (h : r * r ≤ a * U) : r ≤ sqrtNat a := by
  unfold sqrtNat
  simp only []
  set n := a * U with hn
  set t := gridExp (isqrt n) with ht
  set f := isqrt (n / 4 ^ t) with hf
  have h4 : (4 : Nat) ^ t = 2 ^ t * 2 ^ t := by
    rw [← pow_two, ← pow_mul, mul_comm, pow_mul]
    norm_num
  have hGpos : 0 < 2 ^ t := by positivity
  have hrs : r ≤ isqrt n := le_isqrt_of_sq_le h
  have hfR : f * 2 ^ t ≤ (if 4 * n < 4 ^ t * (4 * (f * f + f) + 1) then f * 2 ^ t
      else (f + 1) * 2 ^ t) := by
    split_ifs
    · exact le_refl _
    · exact Nat.mul_le_mul_right _ (by omega)
  refine le_trans ?_ hfR
  have key : ∀ q : Nat, (q * 2 ^ t) * (q * 2 ^ t) ≤ n → q ≤ f := by
    intro q hq
    apply le_isqrt_of_sq_le
    rw [h4, Nat.le_div_iff_mul_le (by positivity)]
    calc q * q * (2 ^ t * 2 ^ t) = (q * 2 ^ t) * (q * 2 ^ t) := by ring
      _ ≤ n := hq
  by_cases hdvd : 2 ^ t ∣ r
  · obtain ⟨q, hq⟩ := hdvd
    have hq' : r = q * 2 ^ t := by rw [hq, mul_comm]
    rw [hq']
    exact Nat.mul_le_mul_right _ (key q (by rw [← hq']; exact h))
  · have ht0 : t ≠ 0 := by
      intro h0
      apply hdvd
      rw [h0]
      simp
    have hL : 53 ≤ ilog2 (isqrt n) := by
      have : t = ilog2 (isqrt n) - 52 := ht
      omega
    have hs0 : isqrt n ≠ 0 := by
      intro h0
      rw [h0] at hL
      simp [ilog2, ilog2Aux] at hL
    have htL : t ≤ ilog2 (isqrt n) := by
      have : t = ilog2 (isqrt n) - 52 := ht
      omega
    have hlt : r < 2 ^ ilog2 (isqrt n) := by
      by_contra hc
      apply hdvd
      have hrL : ilog2 r = ilog2 (isqrt n) :=
        ilog2_unique (by omega) (lt_of_le_of_lt hrs (lt_pow_ilog2 _))
      have : gridExp r = t := by rw [ht]; unfold gridExp; rw [hrL]
      unfold IsRep at hr
      rwa [this] at hr
    obtain ⟨q, hq⟩ := Nat.pow_dvd_pow 2 htL
    have hq' : 2 ^ ilog2 (isqrt n) = q * 2 ^ t := by rw [hq, mul_comm]
    have hsq : (q * 2 ^ t) * (q * 2 ^ t) ≤ n := by
      rw [← hq']
      have h1 := pow_ilog2_le hs0
      exact le_trans (Nat.mul_le_mul h1 h1) (isqrt_spec n).1
    have := Nat.mul_le_mul_right (2 ^ t) (key q hsq)
    omega

theorem fsqrt_one : fsqrt (U : Int) = U := by
  unfold fsqrt
  have hrep : IsRep U := by unfold U; exact isRep_pow _
  have h1 : sqrtNat U ≤ U := sqrtNat_le hrep (le_refl _)
  have h2 : U ≤ sqrtNat U := sqrtNat_ge hrep (le_refl _)
  have : sqrtNat U = U := le_antisymm h1 h2
  simp [this]

end F64

theorem pow_units_nonneg (k : Nat) : (0 : Int) ≤ 2 ^ k * (U : Int) := by positivity

theorem ofInt_le_pow {i : Int} {k : Nat} (h : i ≤ 2 ^ k) : ofInt i ≤ 2 ^ k * U := by
  unfold ofInt
  apply round_le (by norm_num) (isF64_pow_units k)
  have hU : (0 : Int) ≤ U := by positivity
  simpa using mul_le_mul_of_nonneg_right h hU

theorem fmin_bounds {a b m : Int} (ha : 0 ≤ a) (hb : 0 ≤ b) (ham : a ≤ m) :
    0 ≤ fmin a b ∧ fmin a b ≤ m := by
  unfold fmin
  split_ifs <;> constructor <;> omega

theorem fmul_self_bounds {x : Int} {k : Nat} (h0 : 0 ≤ x) (h1 : x ≤ 2 ^ k * U) :
    0 ≤ fmul x x ∧ fmul x x ≤ 2 ^ (2 * k) * U := by
  unfold fmul
  refine ⟨round_nonneg U_pos (mul_nonneg h0 h0), ?_⟩
  apply round_le U_pos (isF64_pow_units (2 * k))
  have h2 : x * x ≤ (2 ^ k * U) * (2 ^ k * U) := mul_le_mul h1 h1 h0 (pow_units_nonneg k)
  have e : ((2 : Int) ^ k * U) * (2 ^ k * U) = 2 ^ (2 * k) * U * U := by
    rw [two_mul, pow_add]
    ring
  rw [e] at h2
  exact h2

theorem fsqrt_bounds {s : Int} {k : Nat} (h0 : 0 ≤ s) (h1 : s ≤ 2 ^ (2 * k + 1) * U) :
    0 ≤ fsqrt s ∧ fsqrt s ≤ 2 ^ (k + 1) * U := by
  unfold fsqrt
  refine ⟨Int.natCast_nonneg _, ?_⟩
  have hrep : IsRep (2 ^ (k + 1) * U) := by
    unfold U
    rw [← pow_add]
    exact isRep_pow _
  have hs : s.toNat ≤ 2 ^ (2 * k + 1) * U := by
    have : (s.toNat : Int) ≤ ((2 ^ (2 * k + 1) * U : Nat) : Int) := by
      rw [Int.toNat_of_nonneg h0]
      push_cast
      exact h1
    exact_mod_cast this
  have hle : s.toNat * U ≤ (2 ^ (k + 1) * U) * (2 ^ (k + 1) * U) := by
    have e : (2 ^ (k + 1) * U) * (2 ^ (k + 1) * U) = 2 ^ (2 * k + 1) * U * U * 2 := by
      have : (2 : Nat) ^ (k + 1) * 2 ^ (k + 1) = 2 ^ (2 * k + 1) * 2 := by
        rw [← pow_add, ← pow_succ]
        congr 1
        omega
      calc (2 ^ (k + 1) * U) * (2 ^ (k + 1) * U) = (2 ^ (k + 1) * 2 ^ (k + 1)) * U * U := by ring
        _ = 2 ^ (2 * k + 1) * U * U * 2 := by rw [this]; ring
    rw [e]
    have := Nat.mul_le_mul_right U hs
    omega
  have := sqrtNat_le hrep hle
  exact_mod_cast this

theorem ofInt_300 : ofInt 300 = 300 * U := ofInt_exact (by norm_num)

theorem fdiv_300_bounds {d : Int} {k : Nat} (h0 : 0 ≤ d) (h1 : d ≤ 2 ^ k * U) :
    0 ≤ fdiv d (ofInt 300) ∧ fdiv d (ofInt 300) ≤ 2 ^ k * U := by
  have hU : (0 : Int) < U := by exact_mod_cast U_pos
  rw [ofInt_300]
  unfold fdiv
  have hpos : ¬ ((300 : Int) * U < 0) := by
    have : (0 : Int) ≤ 300 * U := by positivity
    omega
  rw [if_neg hpos]
  have hden : 0 < ((300 : Int) * U).natAbs := by
    apply Int.natAbs_pos.2
    have : (0 : Int) < 300 * U := by positivity
    omega
  have hcast : (((300 : Int) * U).natAbs : Int) = 300 * U := by
    apply Int.natAbs_of_nonneg
    positivity
  refine ⟨round_nonneg hden (mul_nonneg h0 hU.le), ?_⟩
  apply round_le hden (isF64_pow_units k)
  rw [hcast]
  have hk := pow_units_nonneg k
  nlinarith

theorem spatialDelay_bounds {k : Nat} {totalW totalH row col : Int} (hW : totalW ≤ 2 ^ k)
    (hH : totalH ≤ 2 ^ k) (hrow : 0 ≤ row ∧ row < totalH) (hcol : 0 ≤ col ∧ col < totalW) :
    0 ≤ spatialDelay totalW totalH row col ∧
      spatialDelay totalW totalH row col ≤ 2 ^ (k + 1) * U := by
  unfold spatialDelay
  simp only []
  obtain ⟨x0, x1⟩ := fmin_bounds (b := ofInt (totalW - 1 - col)) (ofInt_nonneg hcol.1)
    (ofInt_nonneg (by omega)) (ofInt_le_pow (k := k) (by omega))
  obtain ⟨y0, y1⟩ := fmin_bounds (b := ofInt (totalH - 1 - row)) (ofInt_nonneg hrow.1)
    (ofInt_nonneg (by omega)) (ofInt_le_pow (k := k) (by omega))
  obtain ⟨xx0, xx1⟩ := fmul_self_bounds x0 x1
  obtain ⟨yy0, yy1⟩ := fmul_self_bounds y0 y1
  have s0 : 0 ≤ fadd (fmul (fmin (ofInt col) (ofInt (totalW - 1 - col)))
      (fmin (ofInt col) (ofInt (totalW - 1 - col))))
      (fmul (fmin (ofInt row) (ofInt (totalH - 1 - row)))
      (fmin (ofInt row) (ofInt (totalH - 1 - row)))) :=
    round_nonneg (by norm_num) (by omega)
  have s1 : fadd (fmul (fmin (ofInt col) (ofInt (totalW - 1 - col)))
      (fmin (ofInt col) (ofInt (totalW - 1 - col))))
      (fmul (fmin (ofInt row) (ofInt (totalH - 1 - row)))
      (fmin (ofInt row) (ofInt (totalH - 1 - row)))) ≤ 2 ^ (2 * k + 1) * U := by
    apply round_le (by norm_num) (isF64_pow_units (2 * k + 1))
    have e : (2 : Int) ^ (2 * k + 1) * U = 2 ^ (2 * k) * U + 2 ^ (2 * k) * U := by
      rw [pow_succ]
      ring
    rw [e]
    push_cast
    omega
  obtain ⟨d0, d1⟩ := fsqrt_bounds s0 s1
  exact fdiv_300_bounds d0 d1

theorem wrapLoop_terminates (K : Nat) : K ≤ 2 ^ 53 → ∀ o : Int, -((K : Int) * U) ≤ o → o ≤ U →
    ∃ r, (∀ fuel, K ≤ fuel → wrapLoop fuel o = some r) ∧ 0 ≤ r ∧ r ≤ U := by
  induction K with
  | zero =>
    intro _ o h0 h1
    have ho : 0 ≤ o := by simpa using h0
    exact ⟨o, fun fuel _ => wrapLoop_of_nonneg fuel ho, ho, h1⟩
  | succ K ih =>
    intro hK o h0 h1
    by_cases ho : 0 ≤ o
    · exact ⟨o, fun fuel _ => wrapLoop_of_nonneg fuel ho, ho, h1⟩
    · have hrep : IsF64 (-((K : Int) * U)) := by
        apply isF64_neg
        apply isF64_int_units
        rw [abs_of_nonneg (by positivity)]
        have : K ≤ 2 ^ 53 := by omega
        exact_mod_cast this
      have a0 : -((K : Int) * U) ≤ fadd o U := by
        unfold fadd
        apply round_ge (by norm_num) hrep
        push_cast at h0 ⊢
        linarith
      have a1 : fadd o U ≤ U := by
        unfold fadd
        exact round_le (by norm_num) isF64_U (by push_cast; omega)
      obtain ⟨r, hr, r0, r1⟩ := ih (by omega) (fadd o U) a0 a1
      refine ⟨r, ?_, r0, r1⟩
      intro fuel hfuel
      obtain ⟨f, rfl⟩ : ∃ f, fuel = f + 1 := ⟨fuel - 1, by omega⟩
      unfold wrapLoop
      rw [if_pos (by omega)]
      exact hr f (by omega)

theorem wrappedOffset_terminates {k : Nat} (hk : k ≤ 52) {totalW totalH row col : Int}
    (hW : totalW ≤ 2 ^ k) (hH : totalH ≤ 2 ^ k) (hrow : 0 ≤ row ∧ row < totalH)
    (hcol : 0 ≤ col ∧ col < totalW) {phase : Int} (h0 : 0 ≤ phase) (h1 : phase ≤ U) :
    ∃ o, (∀ fuel, 2 ^ (k + 1) ≤ fuel →
        wrappedOffset fuel phase (spatialDelay totalW totalH row col) = some o) ∧
      0 ≤ o ∧ o ≤ U := by
  obtain ⟨d0, d1⟩ := spatialDelay_bounds hW hH hrow hcol
  unfold wrappedOffset
  have hK : 2 ^ (k + 1) ≤ 2 ^ 53 := Nat.pow_le_pow_right (by norm_num) (by omega)
  have hrep : IsF64 (-((2 : Int) ^ (k + 1) * U)) := isF64_neg (isF64_pow_units (k + 1))
  apply wrapLoop_terminates (2 ^ (k + 1)) hK
  · unfold fsub
    push_cast
    apply round_ge (by norm_num) hrep
    push_cast
    linarith
  · unfold fsub
    exact round_le (by norm_num) isF64_U (by push_cast; linarith)

theorem scaled_bounds_closed {len : Nat} {offset : Int} (hlen : len ≤ 2 ^ 62) (h0 : 0 ≤ offset)
    (h1 : offset ≤ U) : 0 ≤ scaled len offset ∧ scaled len offset < 2 ^ 63 * U := by
  have hU : (0 : Int) < U := by exact_mod_cast U_pos
  have hn0 : 0 ≤ ofInt len := ofInt_nonneg (by positivity)
  have hn1 : ofInt len ≤ 2 ^ 62 * U := ofInt_le_pow (by exact_mod_cast hlen)
  unfold scaled fmul
  refine ⟨round_nonneg U_pos (mul_nonneg h0 hn0), ?_⟩
  have hle : round (offset * ofInt len) U ≤ 2 ^ 62 * U := by
    apply round_le U_pos (isF64_pow_units 62)
    have := mul_le_mul h1 hn1 hn0 hU.le
    linarith
  have : (2 : Int) ^ 62 * U < 2 ^ 63 * U := by
    have : (2 : Int) ^ 62 < 2 ^ 63 := by norm_num
    exact mul_lt_mul_of_pos_right this hU
  omega

theorem idx_range {len : Nat} {offset : Int} (hlen2 : 2 ≤ len)
    (hp0 : 0 ≤ scaled len offset) (hp1 : scaled len offset < 2 ^ 63 * U) :
    ∃ i : Nat, i < len ∧ idx1 len offset = i ∧ idx2 len offset = ((i + 1) % len : Nat) := by
  obtain ⟨ht, ht0, _⟩ := toInt_nonneg_eq hp0 hp1
  have hlenpos : 0 < len := by omega
  have e1 : idx1 len offset = (((toInt (scaled len offset)).toNat % len : Nat) : Int) := by
    unfold idx1
    rw [ht] at *
    rw [Int.tmod_eq_emod ht0 (by omega)]
    have : scaled len offset / (U : Int) = ((scaled len offset / (U : Int)).toNat : Int) := by
      omega
    rw [this]
    simp
  refine ⟨(toInt (scaled len offset)).toNat % len, Nat.mod_lt _ hlenpos, e1, ?_⟩
  unfold idx2
  rw [e1, Int.tmod_eq_emod (by omega) (by omega)]
  push_cast
  rfl

theorem getInterpolatedRGB_in_range (palette : List Str) {o : Int} (hlen : palette.length ≤ 2 ^ 62)
    (h0 : 0 ≤ o) (h1 : o ≤ U) :
    (∃ c, getInterpolatedRGB palette o = some c) ∧
      (2 ≤ palette.length →
        0 ≤ idx1 palette.length o ∧ idx1 palette.length o < palette.length ∧
        0 ≤ idx2 palette.length o ∧ idx2 palette.length o < palette.length) := by
  obtain ⟨hp0, hp1⟩ := scaled_bounds_closed hlen h0 h1
  have key : 2 ≤ palette.length → ∃ i : Nat, i < palette.length ∧
      idx1 palette.length o = i ∧ idx2 palette.length o = ((i + 1) % palette.length : Nat) :=
    fun h2 => idx_range h2 hp0 hp1
  constructor
  · unfold getInterpolatedRGB
    by_cases hz : palette.length = 0
    · rw [if_pos hz]
      exact ⟨_, rfl⟩
    · rw [if_neg hz]
      by_cases ho : palette.length = 1
      · rw [if_pos ho]
        have hidx : index palette 0 = palette[0]? := index_natCast palette 0
        rw [hidx]
        exact ⟨_, List.getElem?_eq_getElem (by omega)⟩
      · rw [if_neg ho]
        obtain ⟨i, hi, hi1, hi2⟩ := key (by omega)
        have hj : (i + 1) % palette.length < palette.length := Nat.mod_lt _ (by omega)
        rw [hi1, hi2, index_natCast, index_natCast, List.getElem?_eq_getElem hi,
          List.getElem?_eq_getElem hj]
        exact ⟨_, rfl⟩
  · intro h2
    obtain ⟨i, hi, hi1, hi2⟩ := key h2
    have hj : (i + 1) % palette.length < palette.length := Nat.mod_lt _ (by omega)
    rw [hi1, hi2]
    refine ⟨by omega, by exact_mod_cast hi, by omega, by exact_mod_cast hj⟩

/-- The wrap loop of `getB` for an arbitrary `float64` phase: for every phase in `[0, 1]`,
every panel of at most `2^k` columns and rows (`k ≤ 52`) and every cell `(row, col)` inside the
panel, the loop terminates, within `2^(k+1)` rounds, and yields an offset `o` in the closed interval `[0, 1]`
(`1.0` included); for every palette of at most `2^62` colours `getInterpolatedRGB` at `o`
returns a colour without an index panic, its indices `idx1` and `idx2` being in range. -/
theorem wrappedOffset_in_unit_interval (k : Nat) (hk : k ≤ 52) (totalW totalH row col : Int)
    (hW : totalW ≤ 2 ^ k) (hH : totalH ≤ 2 ^ k) (hrow : 0 ≤ row ∧ row < totalH)
    (hcol : 0 ≤ col ∧ col < totalW) (phase : Int) (h0 : 0 ≤ phase) (h1 : phase ≤ U) :
    ∃ o, (∀ fuel, 2 ^ (k + 1) ≤ fuel →
        wrappedOffset fuel phase (spatialDelay totalW totalH row col) = some o) ∧
      0 ≤ o ∧ o ≤ U ∧
      ∀ palette : List Str, palette.length ≤ 2 ^ 62 →
        (∃ c, getInterpolatedRGB palette o = some c ∧
          ∀ fuel, 2 ^ (k + 1) ≤ fuel →
            baseColor fuel palette phase totalW totalH row col = some c) ∧
        (2 ≤ palette.length →
          0 ≤ idx1 palette.length o ∧ idx1 palette.length o < palette.length ∧
          0 ≤ idx2 palette.length o ∧ idx2 palette.length o < palette.length) := by
  obtain ⟨o, ho, o0, o1⟩ := wrappedOffset_terminates hk hW hH hrow hcol h0 h1
  refine ⟨o, ho, o0, o1, ?_⟩
  intro palette hlen
  obtain ⟨⟨c, hc⟩, hidx⟩ := getInterpolatedRGB_in_range palette hlen o0 o1
  refine ⟨⟨c, hc, ?_⟩, hidx⟩
  intro fuel hfuel
  unfold baseColor
  rw [ho fuel hfuel]
  exact hc

/-- Instance of the wrap loop: the cell `(2, 5)` of a panel of 37 by 5 cells (`k = 6`) at phase `0.01`,
where the loop runs once. -/
theorem wrappedOffset_in_unit_interval_witness :
    ∃ o, (∀ fuel, 2 ^ (6 + 1) ≤ fuel →
        wrappedOffset fuel (ofRat 1 100) (spatialDelay 37 5 2 5) = some o) ∧
      0 ≤ o ∧ o ≤ U ∧
      ∀ palette : List Str, palette.length ≤ 2 ^ 62 →
        (∃ c, getInterpolatedRGB palette o = some c ∧
          ∀ fuel, 2 ^ (6 + 1) ≤ fuel →
            baseColor fuel palette (ofRat 1 100) 37 5 2 5 = some c) ∧
        (2 ≤ palette.length →
          0 ≤ idx1 palette.length o ∧ idx1 palette.length o < palette.length ∧
          0 ≤ idx2 palette.length o ∧ idx2 palette.length o < palette.length) :=
  wrappedOffset_in_unit_interval 6 (by decide) 37 5 2 5 (by decide) (by decide) (by decide)
    (by decide) (ofRat 1 100) (by decide) (by decide)

theorem spatialDelay_cell_0_1 : spatialDelay 37 5 0 1 = fdiv U (ofInt 300) := by
  unfold spatialDelay
  have e1 : fmin (ofInt 1) (ofInt (37 - 1 - 1)) = U := by decide
  have e2 : fmin (ofInt 0) (ofInt (5 - 1 - 0)) = 0 := by decide
  have e3 : fadd (fmul (U : Int) U) (fmul 0 0) = U := by decide
  simp only [e1, e2, e3, fsqrt_one]

/-- The upper end of the interval is attained by some `float64` phase: at the phase just below
the spatial delay of the cell `(0, 1)`, a `float64` in `[0, 1)`, the difference is `-2^-61`,
and the loop adds `1.0` once and yields exactly `1.0`.  Whether the phase sequence of the timer
ever holds such a value is not settled here. -/
theorem wrappedOffset_reaches_one :
    IsF64 phaseBelowDelay ∧ 0 ≤ phaseBelowDelay ∧ phaseBelowDelay < U ∧
      fsub phaseBelowDelay (spatialDelay 37 5 0 1) = -((2 ^ 1013 : Nat) : Int) ∧
      wrappedOffset 1 phaseBelowDelay (spatialDelay 37 5 0 1) = some (U : Int) ∧
      wrappedOffset 2 phaseBelowDelay (spatialDelay 37 5 0 1) = some (U : Int) ∧
      ¬ ((U : Int) < U) := by
  unfold phaseBelowDelay
  rw [spatialDelay_cell_0_1]
  decide

end Shinefetch
